import Mathlib

/-!
Shallow embedding of `cmd/debiman/render.go` (the incremental rendering
pass of debiman) and proofs about it.

Conventions of the embedding:
* `os.FileInfo` becomes `FileInfo` (name, modification time as a `Nat`,
  directory flag, symlink flag).  `time.Time` comparisons `After`/`Before`
  become `>`/`<` on `Nat`; the zero `time.Time` becomes `0`.
* `manpage.Meta` (an external collaborator package) is reduced to the two
  observations `renderAll` makes of it: `m.Name` and `m.ServingPath()`.
* Go maps that the code iterates over are determinized as association
  lists in insertion order; `map[k] = v` assignment is modelled so that a
  later assignment wins on lookup (`fileByName`).
* The external collaborators `manpage.FromServingPath`, `rendermanpage`,
  `renderPkgindex` and `renderContents`, and the directory listings
  returned by `ioutil.ReadDir`, are parameters of the model (fields of
  `Env`); their outcomes are arbitrary functions.
* `strings.HasSuffix`/`strings.TrimSuffix` are embedded as `hasSuffix` and
  `trimSuffix` over the character lists of the strings, matching Go's
  semantics (a suffix test, and removal of the suffix when present).
* `filepath.Join(a, b)` on the slash-free path components produced by
  directory listings is embedded as `a ++ "/" ++ b`.
-/

namespace Debiman

/-- Embedding of the parts of `os.FileInfo` that `renderAll` consumes:
`Name()`, `ModTime()`, `IsDir()` and `Mode()&os.ModeSymlink != 0`. -/
structure FileInfo where
  name : String
  modTime : Nat
  isDir : Bool
  isSymlink : Bool
deriving DecidableEq, Repr

/-- Embedding of the parts of `manpage.Meta` that `renderAll` consumes:
`m.Name` and `m.ServingPath()`. -/
structure Meta where
  name : String
  servingPath : String
deriving DecidableEq, Repr

/-- Embedding of the `renderJob` struct local to `renderAll`:
destination path, source path, resolved metadata, variant list and the
global cross reference map. -/
structure RenderJob where
  dest : String
  src : String
  meta : Meta
  versions : List Meta
  xref : List (String × List Meta)
deriving DecidableEq, Repr

/-- Go `strings.HasSuffix s suffix`: is `suffix` a suffix of `s`. -/
def hasSuffix (s suffix : String) : Bool :=
  decide (suffix.data <:+ s.data)

/-- Go `strings.TrimSuffix s suffix`: remove `suffix` from the end of `s`
when present, otherwise return `s` unchanged. -/
def trimSuffix (s suffix : String) : String :=
  if hasSuffix s suffix then ⟨s.data.take (s.data.length - suffix.data.length)⟩ else s

/-- The map `fileByName` built at the top of the per-directory loop
(`fileByName[f.Name()] = f` for every entry, so a later entry with the
same name wins): lookup of name `n`. -/
def fileByName (files : List FileInfo) (n : String) : Option FileInfo :=
  files.reverse.find? (fun fi => fi.name == n)

/-- Lookup in the global cross reference map `gv.xref[name]`; a missing
key yields the empty list, as a missing key in a Go map of slices yields
`nil`. -/
def xrefLookup (xref : List (String × List Meta)) (k : String) : List Meta :=
  match xref.find? (fun p => p.1 == k) with
  | some p => p.2
  | none => []

/-- Lookup in the association list `manpageByName` (last assignment
wins, as in a Go map). -/
def metaByName (m : List (String × Meta)) (k : String) : Option Meta :=
  match m.reverse.find? (fun p => p.1 == k) with
  | some p => some p.2
  | none => none

/-- The eligibility test of the entry loop before any metadata parsing:
the full path ends in `.gz`, does not end in `.html.gz`, and the entry is
not a symbolic link (render.go lines 171 to 177). -/
def eligiblePre (dir : String) (f : FileInfo) : Bool :=
  hasSuffix (dir ++ "/" ++ f.name) ".gz" &&
    !hasSuffix (dir ++ "/" ++ f.name) ".html.gz" &&
    !f.isSymlink

/-- The staleness test of render.go lines 193 to 195: the rendered
counterpart (source name with `.gz` swapped for `.html.gz`) is absent
from the directory snapshot, or its modification time is strictly before
the source entry's. -/
def renderNeeded (lookup : String → Option FileInfo) (f : FileInfo) : Bool :=
  match lookup (trimSuffix f.name ".gz" ++ ".html.gz") with
  | none => true
  | some html => html.modTime < f.modTime

/-- The job construction of render.go lines 196 to 213: look up the
variant list for the parsed name, substitute the canonical variant with
the identical serving path when one exists, and build the `renderJob`. -/
def mkJob (xref : List (String × List Meta)) (dir full n : String) (m : Meta) : RenderJob :=
  let versions := xrefLookup xref m.name
  let m := match versions.find? (fun v => v.servingPath == m.servingPath) with
    | some v => v
    | none => m
  { dest := dir ++ "/" ++ n, src := full, meta := m, versions := versions, xref := xref }

/-- The decision of one iteration of the entry loop, as an `Option`: the
rendered-counterpart name together with the job sent on `renderChan`, or
`none` when the entry is skipped or already fresh. -/
def jobFor (parse : String → Option Meta) (xref : List (String × List Meta))
    (lookup : String → Option FileInfo) (dir : String) (f : FileInfo) :
    Option (String × RenderJob) :=
  if !eligiblePre dir f then none
  else
    let full := dir ++ "/" ++ f.name
    match parse full with
    | none => none
    | some m =>
      let n := trimSuffix f.name ".gz" ++ ".html.gz"
      if renderNeeded lookup f then some (n, mkJob xref dir full n m) else none

/-- Accumulator of the per-directory entry loop: the jobs handed to the
channel so far (with the rendered-counterpart name kept alongside), the
`manpageByName` map, and the `indexNeedsUpdate` flag. -/
structure ScanAcc where
  jobs : List (String × RenderJob)
  manpageByName : List (String × Meta)
  indexNeedsUpdate : Bool
deriving DecidableEq, Repr

/-- One iteration of the entry loop of render.go lines 169 to 218:
suffix checks, symlink check, index staleness check, serving-path
parsing (a failure is logged and skipped), recording in `manpageByName`,
staleness check of the rendered counterpart, and job construction. -/
def processEntry (parse : String → Option Meta) (xref : List (String × List Meta))
    (lookup : String → Option FileInfo) (indexModTime : Nat) (dir : String)
    (acc : ScanAcc) (f : FileInfo) : ScanAcc :=
  let full := dir ++ "/" ++ f.name
  if !(hasSuffix full ".gz") || hasSuffix full ".html.gz" then acc
  else if f.isSymlink then acc
  else
    let acc := if indexModTime < f.modTime then { acc with indexNeedsUpdate := true } else acc
    match parse full with
    | none => acc
    | some m =>
      let acc := { acc with manpageByName := acc.manpageByName ++ [(f.name, m)] }
      let n := trimSuffix f.name ".gz" ++ ".html.gz"
      if renderNeeded lookup f then
        { acc with jobs := acc.jobs ++ [(n, mkJob xref dir full n m)] }
      else acc

/-- The index modification time of render.go lines 163 to 166: the
modification time of the `index.html.gz` entry, or the zero time when it
is absent. -/
def indexModTimeOf (files : List FileInfo) : Nat :=
  match fileByName files "index.html.gz" with
  | some fi => fi.modTime
  | none => 0

/-- The whole per-directory part of the loop body of render.go lines 156
to 218: build `fileByName`, read the index modification time, and fold
the entry loop over the listing. -/
def processDir (parse : String → Option Meta) (xref : List (String × List Meta))
    (dir : String) (files : List FileInfo) : ScanAcc :=
  files.foldl
    (processEntry parse xref (fileByName files) (indexModTimeOf files) dir)
    { jobs := [], manpageByName := [], indexNeedsUpdate := false }

section ProcessDirLemmas

variable (parse : String → Option Meta) (xref : List (String × List Meta))
variable (lookup : String → Option FileInfo) (imt : Nat) (dir : String)

theorem processEntry_jobs (acc : ScanAcc) (f : FileInfo) :
    (processEntry parse xref lookup imt dir acc f).jobs =
      acc.jobs ++ (jobFor parse xref lookup dir f).toList := by
  unfold processEntry jobFor eligiblePre
  by_cases h1 : hasSuffix (dir ++ "/" ++ f.name) ".gz" <;>
    by_cases h2 : hasSuffix (dir ++ "/" ++ f.name) ".html.gz" <;>
      by_cases h3 : f.isSymlink <;>
        simp [h1, h2, h3] <;>
          (cases hp : parse (dir ++ "/" ++ f.name) <;>
            by_cases h4 : imt < f.modTime <;>
              by_cases h5 : renderNeeded lookup f <;>
                simp [hp, h4, h5])

theorem processEntry_flag (acc : ScanAcc) (f : FileInfo) :
    (processEntry parse xref lookup imt dir acc f).indexNeedsUpdate =
      (acc.indexNeedsUpdate || (eligiblePre dir f && decide (imt < f.modTime))) := by
  unfold processEntry eligiblePre
  by_cases h1 : hasSuffix (dir ++ "/" ++ f.name) ".gz" <;>
    by_cases h2 : hasSuffix (dir ++ "/" ++ f.name) ".html.gz" <;>
      by_cases h3 : f.isSymlink <;>
        simp [h1, h2, h3] <;>
          (cases hp : parse (dir ++ "/" ++ f.name) <;>
            by_cases h4 : imt < f.modTime <;>
              by_cases h5 : renderNeeded lookup f <;>
                simp [hp, h4, h5])

/-- The `manpageByName` contribution of one entry: its name paired with
the parsed metadata, when the entry passes the suffix, symlink and
parsing steps. -/
def mbnFor (parse : String → Option Meta) (dir : String) (f : FileInfo) :
    Option (String × Meta) :=
  if !eligiblePre dir f then none
  else
    match parse (dir ++ "/" ++ f.name) with
    | none => none
    | some m => some (f.name, m)

theorem processEntry_mbn (acc : ScanAcc) (f : FileInfo) :
    (processEntry parse xref lookup imt dir acc f).manpageByName =
      acc.manpageByName ++ (mbnFor parse dir f).toList := by
  unfold processEntry mbnFor eligiblePre
  by_cases h1 : hasSuffix (dir ++ "/" ++ f.name) ".gz" <;>
    by_cases h2 : hasSuffix (dir ++ "/" ++ f.name) ".html.gz" <;>
      by_cases h3 : f.isSymlink <;>
        simp [h1, h2, h3] <;>
          (cases hp : parse (dir ++ "/" ++ f.name) <;>
            by_cases h4 : imt < f.modTime <;>
              by_cases h5 : renderNeeded lookup f <;>
                simp [hp, h4, h5])

theorem foldl_processEntry_jobs (files : List FileInfo) (acc : ScanAcc) :
    (files.foldl (processEntry parse xref lookup imt dir) acc).jobs =
      acc.jobs ++ files.flatMap (fun f => (jobFor parse xref lookup dir f).toList) := by
  induction files generalizing acc with
  | nil => simp
  | cons f rest ih =>
    simp only [List.foldl_cons, List.flatMap_cons, ih, processEntry_jobs]
    simp [List.append_assoc]

theorem foldl_processEntry_flag (files : List FileInfo) (acc : ScanAcc) :
    (files.foldl (processEntry parse xref lookup imt dir) acc).indexNeedsUpdate =
      (acc.indexNeedsUpdate ||
        files.any (fun f => eligiblePre dir f && decide (imt < f.modTime))) := by
  induction files generalizing acc with
  | nil => simp
  | cons f rest ih =>
    simp only [List.foldl_cons, List.any_cons, ih, processEntry_flag]
    simp [Bool.or_assoc]

theorem foldl_processEntry_mbn (files : List FileInfo) (acc : ScanAcc) :
    (files.foldl (processEntry parse xref lookup imt dir) acc).manpageByName =
      acc.manpageByName ++ files.flatMap (fun f => (mbnFor parse dir f).toList) := by
  induction files generalizing acc with
  | nil => simp
  | cons f rest ih =>
    simp only [List.foldl_cons, List.flatMap_cons, ih, processEntry_mbn]
    simp [List.append_assoc]

theorem processDir_jobs (files : List FileInfo) :
    (processDir parse xref dir files).jobs =
      files.flatMap
        (fun f => (jobFor parse xref (fileByName files) dir f).toList) := by
  unfold processDir
  rw [foldl_processEntry_jobs]
  rfl

theorem processDir_flag (files : List FileInfo) :
    (processDir parse xref dir files).indexNeedsUpdate =
      files.any (fun f => eligiblePre dir f && decide (indexModTimeOf files < f.modTime)) := by
  unfold processDir
  rw [foldl_processEntry_flag]
  rfl

theorem processDir_mbn (files : List FileInfo) :
    (processDir parse xref dir files).manpageByName =
      files.flatMap (fun f => (mbnFor parse dir f).toList) := by
  unfold processDir
  rw [foldl_processEntry_mbn]
  rfl

end ProcessDirLemmas

theorem String.data_append_eq (s t : String) : (s ++ t).data = s.data ++ t.data := rfl

theorem String.append_cancel_left {a b c : String} (h : a ++ b = a ++ c) : b = c := by
  have hd : a.data ++ b.data = a.data ++ c.data := by
    have := congrArg String.data h
    simpa [String.data_append_eq] using this
  have hbc : b.data = c.data := List.append_cancel_left hd
  exact congrArg String.mk hbc

theorem fullPath_inj {dir a b : String} (h : dir ++ "/" ++ a = dir ++ "/" ++ b) : a = b :=
  String.append_cancel_left h

theorem jobFor_src {parse : String → Option Meta} {xref : List (String × List Meta)}
    {lookup : String → Option FileInfo} {dir : String} {f : FileInfo}
    {p : String × RenderJob} (h : jobFor parse xref lookup dir f = some p) :
    p.2.src = dir ++ "/" ++ f.name := by
  unfold jobFor at h
  by_cases he : eligiblePre dir f <;> simp [he] at h
  cases hp : parse (dir ++ "/" ++ f.name) <;> simp [hp] at h
  by_cases hr : renderNeeded lookup f <;> simp [hr] at h
  rw [← h]
  simp [mkJob]

theorem jobFor_eligible {parse : String → Option Meta} {xref : List (String × List Meta)}
    {lookup : String → Option FileInfo} {dir : String} {f : FileInfo}
    {p : String × RenderJob} (h : jobFor parse xref lookup dir f = some p) :
    eligiblePre dir f = true := by
  unfold jobFor at h
  by_cases he : eligiblePre dir f <;> simp [he] at h
  exact he

theorem jobFor_renderNeeded {parse : String → Option Meta} {xref : List (String × List Meta)}
    {lookup : String → Option FileInfo} {dir : String} {f : FileInfo}
    {p : String × RenderJob} (h : jobFor parse xref lookup dir f = some p) :
    renderNeeded lookup f = true := by
  unfold jobFor at h
  by_cases he : eligiblePre dir f <;> simp [he] at h
  cases hp : parse (dir ++ "/" ++ f.name) <;> simp [hp] at h
  by_cases hr : renderNeeded lookup f <;> simp [hr] at h
  exact hr

theorem jobFor_parses {parse : String → Option Meta} {xref : List (String × List Meta)}
    {lookup : String → Option FileInfo} {dir : String} {f : FileInfo}
    {p : String × RenderJob} (h : jobFor parse xref lookup dir f = some p) :
    ∃ m, parse (dir ++ "/" ++ f.name) = some m := by
  unfold jobFor at h
  by_cases he : eligiblePre dir f <;> simp [he] at h
  cases hp : parse (dir ++ "/" ++ f.name) <;> simp [hp] at h
  exact ⟨_, rfl⟩

theorem mbnFor_key {parse : String → Option Meta} {dir : String} {f : FileInfo}
    {pr : String × Meta} (h : mbnFor parse dir f = some pr) :
    pr.1 = f.name ∧ eligiblePre dir f = true ∧
      parse (dir ++ "/" ++ f.name) = some pr.2 := by
  unfold mbnFor at h
  by_cases he : eligiblePre dir f <;> simp [he] at h
  cases hp : parse (dir ++ "/" ++ f.name) <;> simp [hp] at h
  subst h
  exact ⟨rfl, he, rfl⟩

theorem metaByName_eq_none {l : List (String × Meta)} {k : String}
    (h : ∀ pr ∈ l, pr.1 ≠ k) : metaByName l k = none := by
  unfold metaByName
  have : l.reverse.find? (fun p => p.1 == k) = none := by
    rw [List.find?_eq_none]
    intro pr hpr
    simp only [beq_iff_eq]
    exact h pr (List.mem_reverse.mp hpr)
  rw [this]

/-- Names are unique in a directory listing, so two listed entries with
the same name are the same entry. -/
theorem eq_of_name_eq {files : List FileInfo} (hnd : (files.map (·.name)).Nodup)
    {f g : FileInfo} (hf : f ∈ files) (hg : g ∈ files) (h : f.name = g.name) : f = g :=
  List.inj_on_of_nodup_map hnd hf hg h

/-- Claim C4 --- render-job emission rule: for every scanned entry that
is an eligible compressed source document (source suffix, not a
compressed-HTML output, not a symbolic link, and parsing into metadata),
a render job with that entry's source path is handed to the channel if
and only if the rendered counterpart (name with `.gz` swapped for
`.html.gz`) is absent from the directory snapshot or has a modification
time strictly earlier than the source entry's. -/
theorem renderJob_emitted_iff_stale (parse : String → Option Meta)
    (xref : List (String × List Meta)) (dir : String) (files : List FileInfo)
    (f : FileInfo) (m : Meta) (hnd : (files.map (·.name)).Nodup) (hf : f ∈ files)
    (helig : eligiblePre dir f = true)
    (hm : parse (dir ++ "/" ++ f.name) = some m) :
    (∃ p ∈ (processDir parse xref dir files).jobs, p.2.src = dir ++ "/" ++ f.name) ↔
      (fileByName files (trimSuffix f.name ".gz" ++ ".html.gz") = none ∨
        ∃ html, fileByName files (trimSuffix f.name ".gz" ++ ".html.gz") = some html ∧
          html.modTime < f.modTime) := by
  have hrn : (renderNeeded (fileByName files) f = true) ↔
      (fileByName files (trimSuffix f.name ".gz" ++ ".html.gz") = none ∨
        ∃ html, fileByName files (trimSuffix f.name ".gz" ++ ".html.gz") = some html ∧
          html.modTime < f.modTime) := by
    unfold renderNeeded
    cases hl : fileByName files (trimSuffix f.name ".gz" ++ ".html.gz") <;> simp [hl]
  rw [← hrn]
  constructor
  · rintro ⟨p, hp, hsrc⟩
    rw [processDir_jobs] at hp
    rcases List.mem_flatMap.mp hp with ⟨g, hg, hpg⟩
    rcases Option.mem_toList.mp hpg with hjg
    have hjg : jobFor parse xref (fileByName files) dir g = some p := hjg
    have hsg := jobFor_src hjg
    have hname : g.name = f.name := fullPath_inj (by rw [← hsg, hsrc])
    have : g = f := eq_of_name_eq hnd hg hf hname
    subst this
    exact jobFor_renderNeeded hjg
  · intro hr
    have hj : jobFor parse xref (fileByName files) dir f =
        some (trimSuffix f.name ".gz" ++ ".html.gz",
          mkJob xref dir (dir ++ "/" ++ f.name)
            (trimSuffix f.name ".gz" ++ ".html.gz") m) := by
      unfold jobFor
      simp [helig, hm, hr]
    refine ⟨(trimSuffix f.name ".gz" ++ ".html.gz",
      mkJob xref dir (dir ++ "/" ++ f.name)
        (trimSuffix f.name ".gz" ++ ".html.gz") m), ?_, ?_⟩
    · rw [processDir_jobs]
      exact List.mem_flatMap.mpr ⟨f, hf, by rw [hj]; simp⟩
    · simp [mkJob]

/-- Witness for the render-job emission rule at a concrete directory: a
source entry `test.1.gz` whose counterpart `test.1.html.gz` is older is
emitted. -/
theorem renderJob_emitted_iff_stale_witness :
    (∃ p ∈ (processDir
        (fun s => if s == "sd/main/foo/test.1.gz" then some ⟨"test(1)", s⟩ else none)
        [] "sd/main/foo"
        [⟨"test.1.gz", 5, false, false⟩, ⟨"test.1.html.gz", 3, false, false⟩]).jobs,
      p.2.src = "sd/main/foo" ++ "/" ++ "test.1.gz") ↔
      (fileByName [⟨"test.1.gz", 5, false, false⟩, ⟨"test.1.html.gz", 3, false, false⟩]
          (trimSuffix "test.1.gz" ".gz" ++ ".html.gz") = none ∨
        ∃ html,
          fileByName [⟨"test.1.gz", 5, false, false⟩, ⟨"test.1.html.gz", 3, false, false⟩]
            (trimSuffix "test.1.gz" ".gz" ++ ".html.gz") = some html ∧
          html.modTime < 5) :=
  renderJob_emitted_iff_stale
    (fun s => if s == "sd/main/foo/test.1.gz" then some ⟨"test(1)", s⟩ else none)
    [] "sd/main/foo"
    [⟨"test.1.gz", 5, false, false⟩, ⟨"test.1.html.gz", 3, false, false⟩]
    ⟨"test.1.gz", 5, false, false⟩ ⟨"test(1)", "sd/main/foo/test.1.gz"⟩
    (by decide) (by decide) (by decide) (by decide)

/-- Claim C9 --- symbolic-link exclusion: a directory entry marked as a
symbolic link never produces a render job, never appears in the
name-to-metadata mapping, and whenever the index-staleness flag is set,
it is set because of some entry that is not a symbolic link. -/
theorem symlink_never_rendered (parse : String → Option Meta)
    (xref : List (String × List Meta)) (dir : String) (files : List FileInfo)
    (f : FileInfo) (hnd : (files.map (·.name)).Nodup) (hf : f ∈ files)
    (hsym : f.isSymlink = true) :
    (∀ p ∈ (processDir parse xref dir files).jobs, p.2.src ≠ dir ++ "/" ++ f.name) ∧
      metaByName (processDir parse xref dir files).manpageByName f.name = none ∧
      ((processDir parse xref dir files).indexNeedsUpdate = true →
        ∃ g ∈ files, g.isSymlink = false ∧ eligiblePre dir g = true ∧
          indexModTimeOf files < g.modTime) := by
  refine ⟨?_, ?_, ?_⟩
  · intro p hp hsrc
    rw [processDir_jobs] at hp
    rcases List.mem_flatMap.mp hp with ⟨g, hg, hpg⟩
    have hjg : jobFor parse xref (fileByName files) dir g = some p :=
      Option.mem_toList.mp hpg
    have hname : g.name = f.name := fullPath_inj (by rw [← jobFor_src hjg, hsrc])
    have : g = f := eq_of_name_eq hnd hg hf hname
    subst this
    have := jobFor_eligible hjg
    unfold eligiblePre at this
    simp [hsym] at this
  · rw [processDir_mbn]
    apply metaByName_eq_none
    intro pr hpr
    rcases List.mem_flatMap.mp hpr with ⟨g, hg, hprg⟩
    have hmg : mbnFor parse dir g = some pr := Option.mem_toList.mp hprg
    rcases mbnFor_key hmg with ⟨hkey, helig, _⟩
    intro hk
    have hname : g.name = f.name := by rw [← hkey, hk]
    have : g = f := eq_of_name_eq hnd hg hf hname
    subst this
    unfold eligiblePre at helig
    simp [hsym] at helig
  · intro hflag
    rw [processDir_flag] at hflag
    rcases List.any_eq_true.mp hflag with ⟨g, hg, hcond⟩
    simp only [Bool.and_eq_true, decide_eq_true_eq] at hcond
    obtain ⟨helig, hlt⟩ := hcond
    have hns : g.isSymlink = false := by
      have hs := helig
      unfold eligiblePre at hs
      simp only [Bool.and_eq_true, Bool.not_eq_true'] at hs
      exact hs.2
    exact ⟨g, hg, hns, helig, hlt⟩

/-- Witness for symbolic-link exclusion: a symlinked entry with the
newest modification time produces no job, is absent from the mapping,
and the staleness flag it coexists with is due to a regular entry. -/
theorem symlink_never_rendered_witness :
    (∀ p ∈ (processDir (fun s => some ⟨s, s⟩) [] "sd/main/foo"
        [⟨"a.1.gz", 9, false, true⟩, ⟨"b.1.gz", 4, false, false⟩]).jobs,
      p.2.src ≠ "sd/main/foo" ++ "/" ++ "a.1.gz") ∧
      metaByName (processDir (fun s => some ⟨s, s⟩) [] "sd/main/foo"
        [⟨"a.1.gz", 9, false, true⟩, ⟨"b.1.gz", 4, false, false⟩]).manpageByName
        "a.1.gz" = none ∧
      ((processDir (fun s => some ⟨s, s⟩) [] "sd/main/foo"
          [⟨"a.1.gz", 9, false, true⟩, ⟨"b.1.gz", 4, false, false⟩]).indexNeedsUpdate = true →
        ∃ g ∈ [FileInfo.mk "a.1.gz" 9 false true, FileInfo.mk "b.1.gz" 4 false false],
          g.isSymlink = false ∧ eligiblePre "sd/main/foo" g = true ∧
          indexModTimeOf [⟨"a.1.gz", 9, false, true⟩, ⟨"b.1.gz", 4, false, false⟩] <
            g.modTime) :=
  symlink_never_rendered (fun s => some ⟨s, s⟩) [] "sd/main/foo"
    [⟨"a.1.gz", 9, false, true⟩, ⟨"b.1.gz", 4, false, false⟩]
    ⟨"a.1.gz", 9, false, true⟩ (by decide) (by decide) (by decide)

/-- Claim C10 --- the index-staleness check runs before serving-path
parsing: an eligible entry whose parsing fails still sets the
index-staleness flag when it is newer than the index page, yet it is
omitted from the name-to-metadata mapping used to rebuild the index. -/
theorem unparseable_entry_marks_index (parse : String → Option Meta)
    (xref : List (String × List Meta)) (dir : String) (files : List FileInfo)
    (f : FileInfo) (hf : f ∈ files) (helig : eligiblePre dir f = true)
    (hparse : parse (dir ++ "/" ++ f.name) = none)
    (hnew : indexModTimeOf files < f.modTime) :
    (processDir parse xref dir files).indexNeedsUpdate = true ∧
      metaByName (processDir parse xref dir files).manpageByName f.name = none := by
  constructor
  · rw [processDir_flag]
    exact List.any_eq_true.mpr ⟨f, hf, by simp [helig, hnew]⟩
  · rw [processDir_mbn]
    apply metaByName_eq_none
    intro pr hpr
    rcases List.mem_flatMap.mp hpr with ⟨g, hg, hprg⟩
    have hmg : mbnFor parse dir g = some pr := Option.mem_toList.mp hprg
    rcases mbnFor_key hmg with ⟨hkey, _, hparseg⟩
    intro hk
    have hname : g.name = f.name := by rw [← hkey, hk]
    rw [hname] at hparseg
    rw [hparse] at hparseg
    cases hparseg

/-- Errors of the fallible collaborators; Go `error` values are
abstracted as strings. -/
abbrev Err := String

/-- The environment of one `renderAll` call: the flag values, the
directory listings `ioutil.ReadDir` would return (for the root serving
directory, for each suite directory, and for each package directory),
the global view (`gv.suites`, `gv.xref`), the serving-path parser
`manpage.FromServingPath`, and the outcomes of the collaborator calls
`rendermanpage`, `renderPkgindex` and `renderContents`. -/
structure Env where
  servingDir : String
  suites : String → Bool
  whitelist : Option (List String)
  rootList : Except Err (List FileInfo)
  suiteList : String → Except Err (List FileInfo)
  binList : String → String → Except Err (List FileInfo)
  parse : String → Option Meta
  xref : List (String × List Meta)
  renderErr : RenderJob → Option Err
  pkgindexErr : String → Option Err
  contentsErr : String → Option Err

/-- One observable action of the pass, in the program order of the
producer goroutine of `renderAll`: a render job handed to `renderChan`
(with its suite, package and rendered-counterpart name), a
`renderPkgindex` call for a package directory, the
`close(renderChan)`-plus-`eg.Wait()` join point, and a `renderContents`
call for one suite. -/
inductive Event where
  | emitJob (suite bin n : String) (j : RenderJob)
  | writeIndex (suite bin : String)
  | join
  | writeContents (suite : String)
deriving DecidableEq, Repr

/-- The result of one pass: the events in producer program order, and
the error `renderAll` returns (`none` on success). -/
structure RunResult where
  events : List Event
  error? : Option Err
deriving DecidableEq, Repr

/-- The path of the package directory for suite `s` and binary package
`b`: `filepath.Join(*servingDir, s, b)`. -/
def dirPath (sd s b : String) : String :=
  sd ++ "/" ++ s ++ "/" ++ b

/-- The `ioutil.ReadDir` call for every entry of a suite directory
(render.go lines 102 to 110): collect each entry name and its listing;
the first listing error aborts the pass. -/
def scanBins (env : Env) (suite : String) :
    List FileInfo → Except Err (List (String × String × List FileInfo))
  | [] => .ok []
  | bfi :: rest =>
    match env.binList suite bfi.name with
    | .error e => .error e
    | .ok entries =>
      match scanBins env suite rest with
      | .error e => .error e
      | .ok out => .ok ((suite, bfi.name, entries) :: out)

/-- The suite loop of render.go lines 91 to 112: skip entries that are
not directories or not recognized suites, list each recognized suite
directory and all of its package directories, and record the binary
package names per suite.  Any listing error aborts. -/
def scanSuites (env : Env) :
    List FileInfo →
      Except Err (List (String × List String) × List (String × String × List FileInfo))
  | [] => .ok ([], [])
  | sfi :: rest =>
    if !sfi.isDir then scanSuites env rest
    else if !env.suites sfi.name then scanSuites env rest
    else
      match env.suiteList sfi.name with
      | .error e => .error e
      | .ok bins =>
        match scanBins env sfi.name bins with
        | .error e => .error e
        | .ok dirs =>
          match scanSuites env rest with
          | .error e => .error e
          | .ok (bbs, contents) =>
            .ok ((sfi.name, bins.map (fun b => b.name)) :: bbs, dirs ++ contents)

/-- The whole inventory phase of render.go lines 85 to 112: list the
root serving directory and run the suite loop.  The Go maps
`binsBySuite` and `contents` are determinized as association lists in
insertion order. -/
def scanDirs (env : Env) :
    Except Err (List (String × List String) × List (String × String × List FileInfo)) :=
  match env.rootList with
  | .error e => .error e
  | .ok suitedirs => scanSuites env suitedirs

/-- The whitelist check of render.go line 152:
`whitelist != nil && !whitelist[filepath.Base(dir)]` (for the package
directory paths built here, `filepath.Base` of the directory is the
binary package name). -/
def whitelistSkip (wl : Option (List String)) (bin : String) : Bool :=
  match wl with
  | none => false
  | some l => !(l.contains bin)

/-- The per-directory loop of render.go lines 151 to 227: for each
package directory (unless whitelisted away), run the entry loop, hand
each job to the channel, and when the index-staleness flag is set call
`renderPkgindex`; a `renderPkgindex` error returns from `renderAll` at
once. -/
def runDirs (env : Env) :
    List (String × String × List FileInfo) → List Event × Option Err
  | [] => ([], none)
  | (s, b, files) :: rest =>
    if whitelistSkip env.whitelist b then runDirs env rest
    else
      let dir := dirPath env.servingDir s b
      let r := processDir env.parse env.xref dir files
      let evs := r.jobs.map (fun p => Event.emitJob s b p.1 p.2)
      if r.indexNeedsUpdate then
        match env.pkgindexErr (dir ++ "/" ++ "index.html.gz") with
        | some e => (evs ++ [Event.writeIndex s b], some e)
        | none =>
          let res := runDirs env rest
          (evs ++ [Event.writeIndex s b] ++ res.1, res.2)
      else
        let res := runDirs env rest
        (evs ++ res.1, res.2)

/-- The outcome of `eg.Wait()` (render.go line 229): the workers return
the first `rendermanpage` error; it is determinized here as the error of
the first job, in hand-off order, whose render fails.  The nondeterminism
of the real scheduler is treated in the dispatch model below. -/
def waitResult (env : Env) (evs : List Event) : Option Err :=
  (evs.filterMap (fun e =>
    match e with
    | .emitJob _ _ _ j => env.renderErr j
    | _ => none)).head?

/-- The final loop of render.go lines 233 to 237: one `renderContents`
call per suite, stopping at the first error. -/
def contentsLoop (env : Env) :
    List (String × List String) → List Event × Option Err
  | [] => ([], none)
  | (suite, _bins) :: rest =>
    match env.contentsErr suite with
    | some e => ([Event.writeContents suite], some e)
    | none =>
      let res := contentsLoop env rest
      (Event.writeContents suite :: res.1, res.2)

/-- The whole of `renderAll` (render.go lines 82 to 240): inventory
phase, per-directory loop with immediate `renderPkgindex` calls, the
join point, then the per-suite `renderContents` loop. -/
def renderAll (env : Env) : RunResult :=
  match scanDirs env with
  | .error e => ⟨[], some e⟩
  | .ok (bbs, contents) =>
    match runDirs env contents with
    | (evs, some e) => ⟨evs, some e⟩
    | (evs, none) =>
      match waitResult env evs with
      | some e => ⟨evs ++ [Event.join], some e⟩
      | none =>
        match contentsLoop env bbs with
        | (cevs, cerr) => ⟨evs ++ [Event.join] ++ cevs, cerr⟩

theorem runDirs_events_mem (env : Env) :
    ∀ (l : List (String × String × List FileInfo)) (e : Event),
      e ∈ (runDirs env l).1 →
        (∃ s b n j, e = Event.emitJob s b n j) ∨ ∃ s b, e = Event.writeIndex s b := by
  intro l
  induction l with
  | nil => intro e he; simp [runDirs] at he
  | cons hd rest ih =>
    intro e he
    obtain ⟨s, b, files⟩ := hd
    unfold runDirs at he
    by_cases hwl : whitelistSkip env.whitelist b
    · simp only [hwl, if_true] at he
      exact ih e he
    · simp only [hwl, Bool.false_eq_true, if_false] at he
      by_cases hix :
          (processDir env.parse env.xref (dirPath env.servingDir s b) files).indexNeedsUpdate
      · simp only [hix, if_true] at he
        cases hpk : env.pkgindexErr (dirPath env.servingDir s b ++ "/" ++ "index.html.gz") with
        | some er =>
          rw [hpk] at he
          simp only [List.mem_append, List.mem_map, List.mem_singleton] at he
          rcases he with (⟨p, _, rfl⟩ | rfl)
          · exact Or.inl ⟨s, b, p.1, p.2, rfl⟩
          · exact Or.inr ⟨s, b, rfl⟩
        | none =>
          rw [hpk] at he
          simp only [List.mem_append, List.mem_map, List.mem_singleton] at he
          rcases he with ((⟨p, _, rfl⟩ | rfl) | hrest)
          · exact Or.inl ⟨s, b, p.1, p.2, rfl⟩
          · exact Or.inr ⟨s, b, rfl⟩
          · exact ih e hrest
      · simp only [hix, Bool.false_eq_true, if_false] at he
        simp only [List.mem_append, List.mem_map] at he
        rcases he with (⟨p, _, rfl⟩ | hrest)
        · exact Or.inl ⟨s, b, p.1, p.2, rfl⟩
        · exact ih e hrest

theorem contentsLoop_events_mem (env : Env) :
    ∀ (l : List (String × List String)) (e : Event),
      e ∈ (contentsLoop env l).1 → ∃ s, e = Event.writeContents s := by
  intro l
  induction l with
  | nil => intro e he; simp [contentsLoop] at he
  | cons hd rest ih =>
    intro e he
    obtain ⟨suite, bins⟩ := hd
    unfold contentsLoop at he
    cases hce : env.contentsErr suite with
    | some er =>
      rw [hce] at he
      simp only [List.mem_singleton] at he
      exact ⟨suite, he⟩
    | none =>
      rw [hce] at he
      simp only [List.mem_cons] at he
      rcases he with (rfl | hrest)
      · exact ⟨suite, rfl⟩
      · exact ih e hrest

/-- Claim C7 --- fail-fast scanning: an error listing the root serving
directory, or any error surfacing from the whole inventory phase (suite
or package directory listings), terminates the pass with that error and
an empty event trace: no render job handed over, no index page written,
no listing page written. -/
theorem listing_error_fails_fast (env : Env) (e : Err) :
    (env.rootList = .error e → renderAll env = ⟨[], some e⟩) ∧
      (scanDirs env = .error e → renderAll env = ⟨[], some e⟩) := by
  constructor
  · intro h
    unfold renderAll scanDirs
    rw [h]
  · intro h
    unfold renderAll
    rw [h]

/-- Witness for fail-fast scanning at a concrete environment whose root
listing fails. -/
theorem listing_error_fails_fast_witness :
    renderAll
      { servingDir := "sd", suites := fun s => s == "main", whitelist := none,
        rootList := .error "permission denied",
        suiteList := fun _ => .error "permission denied",
        binList := fun _ _ => .error "permission denied",
        parse := fun _ => none, xref := [],
        renderErr := fun _ => none, pkgindexErr := fun _ => none,
        contentsErr := fun _ => none } = ⟨[], some "permission denied"⟩ :=
  (listing_error_fails_fast _ "permission denied").1 rfl

/-- A concrete environment with one suite `main` holding two package
directories `liba` and `libb`, each with one never-rendered source
document and no index page. -/
def envTwoDirs : Env where
  servingDir := "sd"
  suites := fun s => s == "main"
  whitelist := none
  rootList := .ok [⟨"main", 1, true, false⟩]
  suiteList := fun s =>
    if s == "main" then .ok [⟨"liba", 1, true, false⟩, ⟨"libb", 1, true, false⟩]
    else .error "unreadable"
  binList := fun s b =>
    if s == "main" && b == "liba" then .ok [⟨"a.1.gz", 5, false, false⟩]
    else if s == "main" && b == "libb" then .ok [⟨"b.1.gz", 5, false, false⟩]
    else .error "unreadable"
  parse := fun s => some ⟨s, s⟩
  xref := []
  renderErr := fun _ => none
  pkgindexErr := fun _ => none
  contentsErr := fun _ => none

/-- Counterexample to claim C1 as stated: in a run over two package
directories, the index page of the first directory is regenerated
(event position 1) before the second directory's render job is even
handed to the channel (position 2) and before the global join point
(position 4), so index rebuilds do not wait for the job channel to
drain or for the worker pool to quiesce. -/
theorem index_rebuilt_before_join_cex :
    (renderAll envTwoDirs).events[1]? = some (Event.writeIndex "main" "liba") ∧
      (renderAll envTwoDirs).events[2]? =
        some (Event.emitJob "main" "libb" "b.1.html.gz"
          ⟨"sd/main/libb/b.1.html.gz", "sd/main/libb/b.1.gz",
            ⟨"sd/main/libb/b.1.gz", "sd/main/libb/b.1.gz"⟩, [], []⟩) ∧
      (renderAll envTwoDirs).events[4]? = some Event.join := by decide

/-- Claim C1, amended --- what the code actually orders: on a
successful pass the event trace splits as `A ++ join :: C`, where `A`
(everything before the single join point) consists of the job hand-offs
and the per-directory index rebuilds, interleaved per directory, and
`C` (everything after the join) consists exactly of the per-suite
listing regenerations.  Index pages are thus rebuilt during the
scan/dispatch loop, not after the pool quiesces; only the per-suite
listing pages wait for the join point, and they run only when
everything before them succeeded. -/
theorem index_during_scan_contents_after_join (env : Env)
    (h : (renderAll env).error? = none) :
    ∃ A C, (renderAll env).events = A ++ Event.join :: C ∧
      (∀ e ∈ A, (∃ s b n j, e = Event.emitJob s b n j) ∨ ∃ s b, e = Event.writeIndex s b) ∧
      ∀ e ∈ C, ∃ s, e = Event.writeContents s := by
  unfold renderAll at h ⊢
  cases hscan : scanDirs env with
  | error e => rw [hscan] at h; simp at h
  | ok bc =>
    obtain ⟨bbs, cont⟩ := bc
    simp only [hscan] at h ⊢
    rcases hrun : runDirs env cont with ⟨evs, err?⟩
    simp only [hrun] at h ⊢
    cases err? with
    | some e => simp at h
    | none =>
      cases hwait : waitResult env evs with
      | some e => simp only [hwait] at h; simp at h
      | none =>
        simp only [hwait] at h ⊢
        rcases hcl : contentsLoop env bbs with ⟨cevs, cerr⟩
        simp only [hcl] at h ⊢
        refine ⟨evs, cevs, by simp, ?_, ?_⟩
        · intro e he
          exact runDirs_events_mem env cont e (by rw [hrun]; exact he)
        · intro e he
          exact contentsLoop_events_mem env bbs e (by rw [hcl]; exact he)

/-- Witness for the amended ordering claim at the concrete two-package
environment. -/
theorem index_during_scan_contents_after_join_witness :
    ∃ A C, (renderAll envTwoDirs).events = A ++ Event.join :: C ∧
      (∀ e ∈ A, (∃ s b n j, e = Event.emitJob s b n j) ∨ ∃ s b, e = Event.writeIndex s b) ∧
      ∀ e ∈ C, ∃ s, e = Event.writeContents s :=
  index_during_scan_contents_after_join envTwoDirs (by decide)

/-- Claim C5 --- conservative index invalidation: the per-directory
staleness flag is set if and only if some entry passing the suffix and
symlink checks has a modification time later than the index page's
(zero when the index page is absent); and a `renderPkgindex` call is
made for a directory only when that directory's flag is set. -/
theorem index_flag_iff_newer_entry :
    (∀ (parse : String → Option Meta) (xref : List (String × List Meta))
        (dir : String) (files : List FileInfo),
      (processDir parse xref dir files).indexNeedsUpdate = true ↔
        ∃ f ∈ files, eligiblePre dir f = true ∧ indexModTimeOf files < f.modTime) ∧
      ∀ (env : Env) (l : List (String × String × List FileInfo)) (s b : String),
        Event.writeIndex s b ∈ (runDirs env l).1 →
          ∃ files, (s, b, files) ∈ l ∧
            (processDir env.parse env.xref (dirPath env.servingDir s b)
              files).indexNeedsUpdate = true := by
  constructor
  · intro parse xref dir files
    rw [processDir_flag, List.any_eq_true]
    constructor
    · rintro ⟨f, hf, hc⟩
      simp only [Bool.and_eq_true, decide_eq_true_eq] at hc
      exact ⟨f, hf, hc.1, hc.2⟩
    · rintro ⟨f, hf, h1, h2⟩
      exact ⟨f, hf, by simp [h1, h2]⟩
  · intro env l
    induction l with
    | nil => intro s b h; simp [runDirs] at h
    | cons hd rest ih =>
      intro s b h
      obtain ⟨s0, b0, files0⟩ := hd
      unfold runDirs at h
      by_cases hwl : whitelistSkip env.whitelist b0
      · simp only [hwl, if_true] at h
        rcases ih s b h with ⟨files, hmem, hflag⟩
        exact ⟨files, List.mem_cons_of_mem _ hmem, hflag⟩
      · simp only [hwl, Bool.false_eq_true, if_false] at h
        by_cases hix :
            (processDir env.parse env.xref (dirPath env.servingDir s0 b0)
              files0).indexNeedsUpdate
        · simp only [hix, if_true] at h
          cases hpk :
              env.pkgindexErr (dirPath env.servingDir s0 b0 ++ "/" ++ "index.html.gz") with
          | some er =>
            rw [hpk] at h
            simp only [List.mem_append, List.mem_map, List.mem_singleton] at h
            rcases h with (⟨p, _, hp⟩ | hp)
            · cases hp
            · cases hp
              exact ⟨files0, List.mem_cons_self _ _, hix⟩
          | none =>
            rw [hpk] at h
            simp only [List.mem_append, List.mem_map, List.mem_singleton] at h
            rcases h with ((⟨p, _, hp⟩ | hp) | hrest)
            · cases hp
            · cases hp
              exact ⟨files0, List.mem_cons_self _ _, hix⟩
            · rcases ih s b hrest with ⟨files, hmem, hflag⟩
              exact ⟨files, List.mem_cons_of_mem _ hmem, hflag⟩
        · simp only [hix, Bool.false_eq_true, if_false] at h
          simp only [List.mem_append, List.mem_map] at h
          rcases h with (⟨p, _, hp⟩ | hrest)
          · cases hp
          · rcases ih s b hrest with ⟨files, hmem, hflag⟩
            exact ⟨files, List.mem_cons_of_mem _ hmem, hflag⟩

/-- Witness for conservative index invalidation: an entry that is fresh
relative to its own rendered counterpart but newer than the index page
still sets the flag. -/
theorem index_flag_iff_newer_entry_witness :
    (processDir (fun s => some ⟨s, s⟩) [] "sd/main/foo"
      [⟨"a.1.gz", 6, false, false⟩, ⟨"a.1.html.gz", 7, false, false⟩,
        ⟨"index.html.gz", 4, false, false⟩]).indexNeedsUpdate = true :=
  (index_flag_iff_newer_entry.1 (fun s => some ⟨s, s⟩) [] "sd/main/foo"
    [⟨"a.1.gz", 6, false, false⟩, ⟨"a.1.html.gz", 7, false, false⟩,
      ⟨"index.html.gz", 4, false, false⟩]).mpr
    ⟨⟨"a.1.gz", 6, false, false⟩, by decide, by decide, by decide⟩

theorem runDirs_no_error (env : Env) (hpk : ∀ d, env.pkgindexErr d = none) :
    ∀ l : List (String × String × List FileInfo), (runDirs env l).2 = none := by
  intro l
  induction l with
  | nil => simp [runDirs]
  | cons hd rest ih =>
    obtain ⟨s, b, files⟩ := hd
    unfold runDirs
    by_cases hwl : whitelistSkip env.whitelist b
    · simp only [hwl, if_true]
      exact ih
    · simp only [hwl, Bool.false_eq_true, if_false]
      by_cases hix :
          (processDir env.parse env.xref (dirPath env.servingDir s b) files).indexNeedsUpdate
      · simp only [hix, if_true]
        rw [hpk]
        exact ih
      · simp only [hix, Bool.false_eq_true, if_false]
        exact ih

theorem waitResult_none (env : Env) (hr : ∀ j, env.renderErr j = none)
    (evs : List Event) : waitResult env evs = none := by
  unfold waitResult
  have : evs.filterMap (fun e =>
      match e with
      | .emitJob _ _ _ j => env.renderErr j
      | _ => none) = [] := by
    rw [List.filterMap_eq_nil]
    intro e _
    cases e <;> simp [hr]
  rw [this]
  rfl

theorem contentsLoop_no_error (env : Env) (hc : ∀ s, env.contentsErr s = none) :
    ∀ l : List (String × List String), (contentsLoop env l).2 = none := by
  intro l
  induction l with
  | nil => simp [contentsLoop]
  | cons hd rest ih =>
    obtain ⟨suite, bins⟩ := hd
    unfold contentsLoop
    rw [hc]
    exact ih

/-- Claim C8 --- per-entry parse-failure absorption: an eligible entry
whose serving path fails to parse produces no render job and is absent
from the name-to-metadata mapping, and a parse failure can never be the
overall result of the pass: whenever the inventory phase and every
collaborator call succeed, the pass succeeds, no matter how many
entries fail to parse. -/
theorem parse_failure_absorbed (parse : String → Option Meta)
    (xref : List (String × List Meta)) (dir : String) (files : List FileInfo)
    (f : FileInfo) (hf : f ∈ files) (helig : eligiblePre dir f = true)
    (hparse : parse (dir ++ "/" ++ f.name) = none) :
    (∀ p ∈ (processDir parse xref dir files).jobs, p.2.src ≠ dir ++ "/" ++ f.name) ∧
      metaByName (processDir parse xref dir files).manpageByName f.name = none ∧
      ∀ (env : Env) bc, scanDirs env = .ok bc →
        (∀ j, env.renderErr j = none) → (∀ d, env.pkgindexErr d = none) →
        (∀ s, env.contentsErr s = none) → (renderAll env).error? = none := by
  refine ⟨?_, ?_, ?_⟩
  · intro p hp hsrc
    rw [processDir_jobs] at hp
    rcases List.mem_flatMap.mp hp with ⟨g, hg, hpg⟩
    have hjg : jobFor parse xref (fileByName files) dir g = some p :=
      Option.mem_toList.mp hpg
    rcases jobFor_parses hjg with ⟨m, hm⟩
    have hname : g.name = f.name := fullPath_inj (by rw [← jobFor_src hjg, hsrc])
    rw [hname] at hm
    rw [hparse] at hm
    cases hm
  · rw [processDir_mbn]
    apply metaByName_eq_none
    intro pr hpr
    rcases List.mem_flatMap.mp hpr with ⟨g, hg, hprg⟩
    have hmg : mbnFor parse dir g = some pr := Option.mem_toList.mp hprg
    rcases mbnFor_key hmg with ⟨hkey, _, hparseg⟩
    intro hk
    have hname : g.name = f.name := by rw [← hkey, hk]
    rw [hname] at hparseg
    rw [hparse] at hparseg
    cases hparseg
  · intro env bc hscan hr hpk hc
    unfold renderAll
    obtain ⟨bbs, cont⟩ := bc
    simp only [hscan]
    rcases hrun : runDirs env cont with ⟨evs, err?⟩
    have h2 : err? = none := by
      have := runDirs_no_error env hpk cont
      rw [hrun] at this
      exact this
    subst h2
    simp only [hrun, waitResult_none env hr evs]
    rcases hcl : contentsLoop env bbs with ⟨cevs, cerr⟩
    have h3 : cerr = none := by
      have := contentsLoop_no_error env hc bbs
      rw [hcl] at this
      exact this
    subst h3
    simp only [hcl]

/-- Witness for parse-failure absorption: everything fails to parse,
yet the pass succeeds and emits nothing for the unparseable entry. -/
theorem parse_failure_absorbed_witness :
    (∀ p ∈ (processDir (fun _ => none) [] "sd/main/foo"
        [⟨"a.1.gz", 9, false, false⟩]).jobs,
      p.2.src ≠ "sd/main/foo" ++ "/" ++ "a.1.gz") ∧
      metaByName (processDir (fun _ => none) [] "sd/main/foo"
        [⟨"a.1.gz", 9, false, false⟩]).manpageByName "a.1.gz" = none ∧
      ∀ (env : Env) bc, scanDirs env = .ok bc →
        (∀ j, env.renderErr j = none) → (∀ d, env.pkgindexErr d = none) →
        (∀ s, env.contentsErr s = none) → (renderAll env).error? = none :=
  parse_failure_absorbed (fun _ => none) [] "sd/main/foo"
    [⟨"a.1.gz", 9, false, false⟩] ⟨"a.1.gz", 9, false, false⟩
    (by decide) (by decide) (by decide)

/-- Witness for the pre-parse staleness check: an eligible entry the
parser rejects still marks the index stale and stays out of the map. -/
theorem unparseable_entry_marks_index_witness :
    (processDir (fun _ => none) [] "sd/main/foo"
        [⟨"a.1.gz", 9, false, false⟩]).indexNeedsUpdate = true ∧
      metaByName (processDir (fun _ => none) [] "sd/main/foo"
        [⟨"a.1.gz", 9, false, false⟩]).manpageByName "a.1.gz" = none :=
  unparseable_entry_marks_index (fun _ => none) [] "sd/main/foo"
    [⟨"a.1.gz", 9, false, false⟩] ⟨"a.1.gz", 9, false, false⟩
    (by decide) (by decide) (by decide) (by decide)

/-- A file visible in the filesystem: its bytes (abstracted as a
string) and its modification time. -/
structure FileData where
  payload : String
  modTime : Nat
deriving DecidableEq, Repr

/-- The slice of filesystem state `writeAtomically` can touch: the file
at the destination path, and the temporary file it creates in the
destination's directory. -/
structure WAState where
  dest : Option FileData
  temp : Option FileData
deriving DecidableEq, Repr

/-- Outcomes of the fallible steps of `writeAtomically` (render.go
lines 38 to 80), in program order: `ioutil.TempFile`,
`gzip.NewWriterLevel`, the `write` producer, `gzipw.Close()`,
`bufw.Flush()`, `f.Chmod(0644)`, `f.Close()` and `os.Rename`; plus the
compressed bytes the producer run yields and the time of the write. -/
structure WASteps where
  tempErr : Option Err
  gzipErr : Option Err
  produceErr : Option Err
  closeGzipErr : Option Err
  flushErr : Option Err
  chmodErr : Option Err
  closeFileErr : Option Err
  renameErr : Option Err
  payload : String
  now : Nat
deriving DecidableEq, Repr

/-- Embedding of `writeAtomically`: each step either fails (returning
its error, with the deferred closes releasing the handle but the
temporary file left behind, per the TODO comment in the code) or
proceeds; only the final `os.Rename` replaces the destination. -/
def writeAtomically (st : WAState) (s : WASteps) : WAState × Option Err :=
  match s.tempErr with
  | some e => (st, some e)
  | none =>
    let st1 : WAState := { st with temp := some ⟨"", s.now⟩ }
    match s.gzipErr with
    | some e => (st1, some e)
    | none =>
      match s.produceErr with
      | some e => (st1, some e)
      | none =>
        let st2 : WAState := { st1 with temp := some ⟨s.payload, s.now⟩ }
        match s.closeGzipErr with
        | some e => (st2, some e)
        | none =>
          match s.flushErr with
          | some e => (st2, some e)
          | none =>
            match s.chmodErr with
            | some e => (st2, some e)
            | none =>
              match s.closeFileErr with
              | some e => (st2, some e)
              | none =>
                match s.renameErr with
                | some e => (st2, some e)
                | none => (⟨some ⟨s.payload, s.now⟩, none⟩, none)

/-- Claim C3 --- all-or-nothing visibility of `writeAtomically`: when
any step fails, the destination file is exactly as before the call
(same content and modification time); and whenever the destination
changed, the call succeeded, every step succeeded, and the change is
the final rename installing the produced payload. -/
theorem writeAtomically_all_or_nothing (st : WAState) (s : WASteps) :
    ((∃ e, (writeAtomically st s).2 = some e) → (writeAtomically st s).1.dest = st.dest) ∧
      ((writeAtomically st s).1.dest ≠ st.dest →
        (writeAtomically st s).2 = none ∧ s.tempErr = none ∧ s.gzipErr = none ∧
          s.produceErr = none ∧ s.closeGzipErr = none ∧ s.flushErr = none ∧
          s.chmodErr = none ∧ s.closeFileErr = none ∧ s.renameErr = none ∧
          (writeAtomically st s).1.dest = some ⟨s.payload, s.now⟩) := by
  obtain ⟨te, ge, pe, cge, fe, che, cfe, re, pl, now⟩ := s
  cases te <;> cases ge <;> cases pe <;> cases cge <;> cases fe <;>
    cases che <;> cases cfe <;> cases re <;>
      simp [writeAtomically]

/-- Witness for all-or-nothing visibility: a producer failure leaves a
pre-existing destination file untouched. -/
theorem writeAtomically_all_or_nothing_witness :
    (writeAtomically ⟨some ⟨"old", 3⟩, none⟩
        ⟨none, none, some "disk full", none, none, none, none, none, "new", 9⟩).1.dest =
      (⟨some ⟨"old", 3⟩, none⟩ : WAState).dest :=
  (writeAtomically_all_or_nothing ⟨some ⟨"old", 3⟩, none⟩
    ⟨none, none, some "disk full", none, none, none, none, none, "new", 9⟩).1
    ⟨"disk full", rfl⟩

/-- State of the dispatch model of render.go lines 122 to 137 and 206
to 216: the jobs received by workers in hand-off order, those received
while the errgroup context was already cancelled, the cancellation
flag, and the error `errgroup` records (its `errOnce` keeps the first
one). -/
structure DispatchState where
  dispatched : List RenderJob
  dispatchedAfterCancel : List RenderJob
  cancelled : Bool
  firstErr : Option Err
deriving DecidableEq, Repr

/-- Small-step model of the producer's send loop interacting with the
worker pool, under the schedule in which a worker that receives a job
runs `rendermanpage` at once and a resulting error cancels the errgroup
context before the producer's next `select`.  While the context is not
cancelled only the send case of the `select` can fire (the producer
blocks for a worker); once it is cancelled both cases are ready and the
Go runtime picks one of them, here resolved by the oracle `choice` (at
send attempt `i`, `choice i = true` picks the send case).  Taking the
`<-ctx.Done()` case executes `break`, which exits only the `select`,
so the loop continues with the next entry either way; workers contain
no context check and keep receiving until the channel is closed. -/
def dispatchLoop (renderErr : RenderJob → Option Err) (choice : Nat → Bool) :
    Nat → DispatchState → List RenderJob → DispatchState
  | _, st, [] => st
  | i, st, j :: rest =>
    if st.cancelled && !(choice i) then
      dispatchLoop renderErr choice (i + 1) st rest
    else
      let st1 : DispatchState :=
        { st with
          dispatched := st.dispatched ++ [j]
          dispatchedAfterCancel :=
            if st.cancelled then st.dispatchedAfterCancel ++ [j]
            else st.dispatchedAfterCancel }
      match renderErr j with
      | some e =>
        dispatchLoop renderErr choice (i + 1)
          { st1 with
            cancelled := true
            firstErr := match st1.firstErr with
              | some e0 => some e0
              | none => some e } rest
      | none => dispatchLoop renderErr choice (i + 1) st1 rest

/-- Counterexample to claim C6 as stated: with two jobs, a schedule in
which the first job's render fails and cancels the context, and a
`select` that then picks the ready send case, the second job is still
handed to a worker after the first fatal error, because the `break` in
the `<-ctx.Done()` case exits only the `select` and workers never stop
taking jobs before the channel closes. -/
theorem job_dispatched_after_error_cex :
    (dispatchLoop
        (fun j => if j = ⟨"d1", "s1", ⟨"m1", "p1"⟩, [], []⟩ then some "disk full" else none)
        (fun _ => true) 0 ⟨[], [], false, none⟩
        [⟨"d1", "s1", ⟨"m1", "p1"⟩, [], []⟩,
          ⟨"d2", "s2", ⟨"m2", "p2"⟩, [], []⟩]).dispatchedAfterCancel =
      [⟨"d2", "s2", ⟨"m2", "p2"⟩, [], []⟩] ∧
      (dispatchLoop
        (fun j => if j = ⟨"d1", "s1", ⟨"m1", "p1"⟩, [], []⟩ then some "disk full" else none)
        (fun _ => true) 0 ⟨[], [], false, none⟩
        [⟨"d1", "s1", ⟨"m1", "p1"⟩, [], []⟩,
          ⟨"d2", "s2", ⟨"m2", "p2"⟩, [], []⟩]).cancelled = true := by decide

theorem dispatchLoop_invariant (renderErr : RenderJob → Option Err)
    (choice : Nat → Bool) :
    ∀ (jobs : List RenderJob) (i : Nat) (st : DispatchState),
      st.firstErr = (st.dispatched.filterMap renderErr).head? →
      st.cancelled = !(st.dispatched.filterMap renderErr).isEmpty →
      (dispatchLoop renderErr choice i st jobs).firstErr =
        ((dispatchLoop renderErr choice i st jobs).dispatched.filterMap renderErr).head? ∧
      (dispatchLoop renderErr choice i st jobs).cancelled =
        !((dispatchLoop renderErr choice i st jobs).dispatched.filterMap renderErr).isEmpty := by
  intro jobs
  induction jobs with
  | nil => intro i st h1 h2; exact ⟨h1, h2⟩
  | cons j rest ih =>
    intro i st h1 h2
    unfold dispatchLoop
    by_cases hskip : st.cancelled && !(choice i)
    · simp only [hskip, if_true]
      exact ih (i + 1) st h1 h2
    · simp only [hskip, Bool.false_eq_true, if_false]
      cases hre : renderErr j with
      | some e =>
        refine ih (i + 1) _ ?_ ?_
        · simp only [List.filterMap_append, List.filterMap_cons, hre,
            List.filterMap_nil]
          cases hd : st.dispatched.filterMap renderErr with
          | nil =>
            have hfe : st.firstErr = none := by rw [h1, hd]; rfl
            simp [hfe]
          | cons a tl =>
            have hfe : st.firstErr = some a := by rw [h1, hd]; rfl
            simp [hfe]
        · simp [hre]
      | none =>
        refine ih (i + 1) _ ?_ ?_
        · simpa [List.filterMap_append, List.filterMap_cons, hre] using h1
        · simpa [List.filterMap_append, List.filterMap_cons, hre] using h2

/-- Claim C6, amended --- what the dispatch loop actually guarantees:
the error recorded for `eg.Wait()` is exactly the first render error in
hand-off order (a later error never masks an earlier one), and the
context is cancelled exactly when some handed-off job failed; but jobs
can keep being handed to workers after the first fatal error, and only
under schedules in which the `select` always resolves to the
`<-ctx.Done()` case once cancelled does the loop stop handing jobs
over. -/
theorem dispatch_first_error_not_masked (renderErr : RenderJob → Option Err)
    (choice : Nat → Bool) (jobs : List RenderJob) :
    (dispatchLoop renderErr choice 0 ⟨[], [], false, none⟩ jobs).firstErr =
      ((dispatchLoop renderErr choice 0 ⟨[], [], false, none⟩ jobs).dispatched.filterMap
        renderErr).head? ∧
      (dispatchLoop renderErr choice 0 ⟨[], [], false, none⟩ jobs).cancelled =
        !((dispatchLoop renderErr choice 0 ⟨[], [], false, none⟩ jobs).dispatched.filterMap
          renderErr).isEmpty ∧
      ((∀ i, choice i = false) →
        (dispatchLoop renderErr choice 0 ⟨[], [], false, none⟩
          jobs).dispatchedAfterCancel = []) := by
  refine ⟨(dispatchLoop_invariant renderErr choice jobs 0 _ rfl rfl).1,
    (dispatchLoop_invariant renderErr choice jobs 0 _ rfl rfl).2, ?_⟩
  intro hch
  suffices h : ∀ (l : List RenderJob) (i : Nat) (st : DispatchState),
      st.dispatchedAfterCancel = [] →
      (dispatchLoop renderErr choice i st l).dispatchedAfterCancel = [] by
    exact h jobs 0 _ rfl
  intro l
  induction l with
  | nil => intro i st h0; exact h0
  | cons j rest ih =>
    intro i st h0
    unfold dispatchLoop
    by_cases hskip : st.cancelled && !(choice i)
    · simp only [hskip, if_true]
      exact ih (i + 1) st h0
    · simp only [hskip, Bool.false_eq_true, if_false]
      have hnc : st.cancelled = false := by
        by_cases hc : st.cancelled
        · exfalso
          apply hskip
          simp [hc, hch i]
        · simpa using hc
      cases hre : renderErr j with
      | some e =>
        apply ih (i + 1)
        simp [hnc, h0]
      | none =>
        apply ih (i + 1)
        simp [hnc, h0]

/-- Witness for the amended dispatch claim at a concrete failing job
list and the always-skip schedule. -/
theorem dispatch_first_error_not_masked_witness :
    (dispatchLoop (fun _ => some "disk full") (fun _ => false) 0 ⟨[], [], false, none⟩
        [⟨"d1", "s1", ⟨"m1", "p1"⟩, [], []⟩]).firstErr =
      ((dispatchLoop (fun _ => some "disk full") (fun _ => false) 0 ⟨[], [], false, none⟩
        [⟨"d1", "s1", ⟨"m1", "p1"⟩, [], []⟩]).dispatched.filterMap
          (fun _ => some "disk full")).head? ∧
      (dispatchLoop (fun _ => some "disk full") (fun _ => false) 0 ⟨[], [], false, none⟩
        [⟨"d1", "s1", ⟨"m1", "p1"⟩, [], []⟩]).cancelled =
        !((dispatchLoop (fun _ => some "disk full") (fun _ => false) 0 ⟨[], [], false, none⟩
          [⟨"d1", "s1", ⟨"m1", "p1"⟩, [], []⟩]).dispatched.filterMap
            (fun _ => some "disk full")).isEmpty ∧
      ((∀ i : Nat, (fun _ : Nat => false) i = false) →
        (dispatchLoop (fun _ => some "disk full") (fun _ => false) 0 ⟨[], [], false, none⟩
          [⟨"d1", "s1", ⟨"m1", "p1"⟩, [], []⟩]).dispatchedAfterCancel = []) :=
  dispatch_first_error_not_masked (fun _ => some "disk full") (fun _ => false)
    [⟨"d1", "s1", ⟨"m1", "p1"⟩, [], []⟩]

/-- Concrete filesystem state for a whole pass: the listing of the root
serving directory, the listings of the suite directories (keyed by
suite name), and the listings of the package directories (keyed by
suite and binary package name). -/
structure FSState where
  rootEntries : List FileInfo
  suiteDirs : List (String × List FileInfo)
  binDirs : List ((String × String) × List FileInfo)
deriving Repr

def lookupSuite (sd : List (String × List FileInfo)) (s : String) :
    Option (List FileInfo) :=
  (sd.find? (fun p => p.1 == s)).map (fun p => p.2)

def lookupBin (bd : List ((String × String) × List FileInfo)) (k : String × String) :
    Option (List FileInfo) :=
  (bd.find? (fun p => p.1 == k)).map (fun p => p.2)

/-- The parameters of a pass that do not live in the filesystem. -/
structure Collab where
  servingDir : String
  suites : String → Bool
  whitelist : Option (List String)
  parse : String → Option Meta
  xref : List (String × List Meta)
  renderErr : RenderJob → Option Err
  pkgindexErr : String → Option Err
  contentsErr : String → Option Err

/-- The environment a pass over the filesystem state `st` sees: each
`ioutil.ReadDir` returns the recorded listing, and a missing directory
is a listing error. -/
def envOfState (c : Collab) (st : FSState) : Env where
  servingDir := c.servingDir
  suites := c.suites
  whitelist := c.whitelist
  rootList := .ok st.rootEntries
  suiteList := fun s =>
    match lookupSuite st.suiteDirs s with
    | some es => .ok es
    | none => .error ("open " ++ s)
  binList := fun s b =>
    match lookupBin st.binDirs (s, b) with
    | some es => .ok es
    | none => .error ("open " ++ s ++ "/" ++ b)
  parse := c.parse
  xref := c.xref
  renderErr := c.renderErr
  pkgindexErr := c.pkgindexErr
  contentsErr := c.contentsErr

/-- A file freshly installed by `writeAtomically` at time `now`: a
regular file, not a directory, not a symlink. -/
def writtenFile (n : String) (now : Nat) : FileInfo :=
  ⟨n, now, false, false⟩

/-- Effect on one directory listing of renaming a freshly written file
over the name `n`: an existing entry of that name is replaced, a new
name is appended. -/
def setEntry (files : List FileInfo) (n : String) (now : Nat) : List FileInfo :=
  if files.any (fun fi => fi.name == n) then
    files.map (fun fi => if fi.name == n then writtenFile n now else fi)
  else files ++ [writtenFile n now]

def updateBin (bd : List ((String × String) × List FileInfo))
    (k : String × String) (n : String) (now : Nat) :
    List ((String × String) × List FileInfo) :=
  bd.map (fun p => if p.1 = k then (p.1, setEntry p.2 n now) else p)

/-- The filesystem effect of one successful event: a render job writes
its rendered counterpart into its package directory, an index rebuild
writes `index.html.gz` there, a listing regeneration writes
`contents-<suite>.html.gz` into the root, and the join writes
nothing. -/
def applyEvent (now : Nat) (st : FSState) : Event → FSState
  | .emitJob s b n _ => { st with binDirs := updateBin st.binDirs (s, b) n now }
  | .writeIndex s b => { st with binDirs := updateBin st.binDirs (s, b) "index.html.gz" now }
  | .join => st
  | .writeContents s =>
    { st with rootEntries := setEntry st.rootEntries ("contents-" ++ s ++ ".html.gz") now }

def applyEvents (now : Nat) (st : FSState) (evs : List Event) : FSState :=
  evs.foldl (applyEvent now) st

/-- The names written into the package directory of key `k` by a list
of events. -/
def targetNames (k : String × String) (evs : List Event) : List String :=
  evs.filterMap (fun e =>
    match e with
    | .emitJob s0 b0 n _ => if (s0, b0) == k then some n else none
    | .writeIndex s0 b0 => if (s0, b0) == k then some "index.html.gz" else none
    | _ => none)

/-- The names written into the root directory by a list of events. -/
def contentsNames (evs : List Event) : List String :=
  evs.filterMap (fun e =>
    match e with
    | .writeContents s => some ("contents-" ++ s ++ ".html.gz")
    | _ => none)

def applyNames (now : Nat) (files : List FileInfo) (ns : List String) : List FileInfo :=
  ns.foldl (fun fs n => setEntry fs n now) files

theorem hasSuffix_append_self (a t : String) : hasSuffix (a ++ t) t = true := by
  simp [hasSuffix, String.data_append_eq, List.suffix_append]

theorem hasSuffix_of_name (dir name t : String) (h : hasSuffix name t = true) :
    hasSuffix (dir ++ "/" ++ name) t = true := by
  simp only [hasSuffix, decide_eq_true_eq] at h ⊢
  have h2 : name.data <:+ (dir ++ "/" ++ name).data := by
    simp only [String.data_append_eq]
    rw [List.append_assoc]
    exact (List.suffix_append _ _).trans (by rw [← List.append_assoc])
  exact h.trans h2

theorem find?_map_overwrite (n : String) (now : Nat) :
    ∀ r : List FileInfo, r.any (fun fi => fi.name == n) = true →
      (r.map (fun fi => if fi.name == n then writtenFile n now else fi)).find?
        (fun fi => fi.name == n) = some (writtenFile n now) := by
  intro r
  induction r with
  | nil => intro h; simp at h
  | cons f rest ih =>
    intro h
    by_cases hf : f.name = n
    · have hc : (f.name == n) = true := by simpa using hf
      rw [List.map_cons, if_pos hc]
      rw [List.find?_cons_of_pos]
      simp [writtenFile]
    · have hc : (f.name == n) = false := by simpa using hf
      have h2 : rest.any (fun fi => fi.name == n) = true := by
        simpa [hc] using h
      rw [List.map_cons, if_neg (by simp [hc])]
      rw [List.find?_cons_of_neg _ (by simp [hc])]
      exact ih h2

theorem find?_map_overwrite_other (n m : String) (now : Nat) (hm : m ≠ n) :
    ∀ r : List FileInfo,
      (r.map (fun fi => if fi.name == n then writtenFile n now else fi)).find?
        (fun fi => fi.name == m) =
      r.find? (fun fi => fi.name == m) := by
  intro r
  induction r with
  | nil => simp
  | cons f rest ih =>
    by_cases hf : f.name = n
    · have hc : (f.name == n) = true := by simpa using hf
      rw [List.map_cons, if_pos hc]
      rw [List.find?_cons_of_neg]
      · rw [List.find?_cons_of_neg]
        · exact ih
        · simp only [beq_iff_eq, hf]
          exact fun he => hm he.symm
      · simp only [writtenFile, beq_iff_eq]
        exact fun he => hm he.symm
    · have hc : (f.name == n) = false := by simpa using hf
      rw [List.map_cons, if_neg (by simp [hc])]
      by_cases hfm : f.name = m
      · rw [List.find?_cons_of_pos]
        · rw [List.find?_cons_of_pos]
          · simpa using hfm
        · simpa using hfm
      · rw [List.find?_cons_of_neg]
        · rw [List.find?_cons_of_neg]
          · exact ih
          · simpa using hfm
        · simpa using hfm

theorem fileByName_setEntry_self (files : List FileInfo) (n : String) (now : Nat) :
    fileByName (setEntry files n now) n = some (writtenFile n now) := by
  unfold setEntry
  by_cases h : files.any (fun fi => fi.name == n)
  · simp only [h, if_true]
    unfold fileByName
    rw [← List.map_reverse]
    apply find?_map_overwrite
    rw [List.any_reverse]
    exact h
  · simp only [h, Bool.false_eq_true, if_false]
    unfold fileByName
    rw [List.reverse_append]
    simp [writtenFile]

theorem fileByName_setEntry_other (files : List FileInfo) (n m : String) (now : Nat)
    (hm : m ≠ n) :
    fileByName (setEntry files n now) m = fileByName files m := by
  unfold setEntry
  by_cases h : files.any (fun fi => fi.name == n)
  · simp only [h, if_true]
    unfold fileByName
    rw [← List.map_reverse]
    exact find?_map_overwrite_other n m now hm _
  · simp only [h, Bool.false_eq_true, if_false]
    unfold fileByName
    rw [List.reverse_append]
    simp only [List.reverse_singleton, List.singleton_append, List.find?_cons]
    have h2 : ((writtenFile n now).name == m) = false := by
      have h1 : (writtenFile n now).name = n := rfl
      rw [h1]
      simpa using fun he => hm he.symm
    simp only [h2]

theorem mem_setEntry (files : List FileInfo) (n : String) (now : Nat)
    (f : FileInfo) (hne : f.name ≠ n) :
    f ∈ setEntry files n now ↔ f ∈ files := by
  unfold setEntry
  by_cases h : files.any (fun fi => fi.name == n)
  · simp only [h, if_true]
    constructor
    · intro hf
      rcases List.mem_map.mp hf with ⟨x, hx, hgx⟩
      by_cases hxn : x.name = n
      · rw [if_pos (by simpa using hxn)] at hgx
        exfalso
        apply hne
        rw [← hgx]
        rfl
      · rw [if_neg (by simpa using hxn)] at hgx
        rw [← hgx]
        exact hx
    · intro hf
      apply List.mem_map.mpr
      refine ⟨f, hf, ?_⟩
      rw [if_neg (by simpa using hne)]
  · simp only [h, Bool.false_eq_true, if_false, List.mem_append, List.mem_singleton]
    constructor
    · rintro (hf | hf)
      · exact hf
      · exfalso
        apply hne
        rw [hf]
        rfl
    · exact Or.inl

theorem applyNames_nil (now : Nat) (files : List FileInfo) :
    applyNames now files [] = files := rfl

theorem applyNames_cons (now : Nat) (files : List FileInfo) (n : String)
    (rest : List String) :
    applyNames now files (n :: rest) = applyNames now (setEntry files n now) rest := rfl

theorem fileByName_applyNames_not_mem (now : Nat) :
    ∀ (ns : List String) (files : List FileInfo) (m : String), m ∉ ns →
      fileByName (applyNames now files ns) m = fileByName files m := by
  intro ns
  induction ns with
  | nil => intro files m _; rfl
  | cons n rest ih =>
    intro files m hm
    have hm1 : m ≠ n := fun h => hm (h ▸ List.mem_cons_self n rest)
    have hm2 : m ∉ rest := fun h => hm (List.mem_cons_of_mem n h)
    rw [applyNames_cons]
    rw [ih _ m hm2]
    exact fileByName_setEntry_other files n m now hm1

theorem fileByName_applyNames_mem (now : Nat) :
    ∀ (ns : List String) (files : List FileInfo) (m : String), m ∈ ns →
      fileByName (applyNames now files ns) m = some (writtenFile m now) := by
  intro ns
  induction ns with
  | nil => intro files m h; simp at h
  | cons n rest ih =>
    intro files m hm
    rw [applyNames_cons]
    by_cases hm2 : m ∈ rest
    · exact ih _ m hm2
    · have hmn : m = n := by
        rcases List.mem_cons.mp hm with h | h
        · exact h
        · exact absurd h hm2
      subst hmn
      rw [fileByName_applyNames_not_mem now rest _ m hm2]
      exact fileByName_setEntry_self files m now

theorem mem_applyNames (now : Nat) :
    ∀ (ns : List String) (files : List FileInfo) (f : FileInfo),
      (∀ n ∈ ns, f.name ≠ n) →
      (f ∈ applyNames now files ns ↔ f ∈ files) := by
  intro ns
  induction ns with
  | nil => intro files f _; rfl
  | cons n rest ih =>
    intro files f hf
    rw [applyNames_cons]
    rw [ih _ f (fun x hx => hf x (List.mem_cons_of_mem n hx))]
    exact mem_setEntry files n now f (hf n (List.mem_cons_self n rest))

theorem lookupBin_cons (p : (String × String) × List FileInfo)
    (rest : List ((String × String) × List FileInfo)) (k : String × String) :
    lookupBin (p :: rest) k = if p.1 = k then some p.2 else lookupBin rest k := by
  unfold lookupBin
  by_cases h : p.1 = k
  · rw [List.find?_cons_of_pos]
    · simp [h]
    · simpa using h
  · rw [List.find?_cons_of_neg]
    · simp [h]
    · simpa using h

theorem updateBin_cons (p : (String × String) × List FileInfo)
    (rest : List ((String × String) × List FileInfo)) (k : String × String)
    (n : String) (now : Nat) :
    updateBin (p :: rest) k n now =
      (if p.1 = k then (p.1, setEntry p.2 n now) else p) :: updateBin rest k n now := rfl

theorem lookupBin_updateBin (bd : List ((String × String) × List FileInfo))
    (k : String × String) (n : String) (now : Nat) (k' : String × String) :
    lookupBin (updateBin bd k n now) k' =
      if k = k' then (lookupBin bd k').map (fun es => setEntry es n now)
      else lookupBin bd k' := by
  induction bd with
  | nil => by_cases h : k = k' <;> simp [lookupBin, updateBin, h]
  | cons p rest ih =>
    rw [updateBin_cons]
    by_cases hq : p.1 = k
    · by_cases hr : p.1 = k'
      · have ht : k = k' := by rw [← hq, hr]
        simp [lookupBin_cons, if_pos hq, hr, ht]
      · have ht : ¬k = k' := fun h => hr (hq.trans h)
        simp [lookupBin_cons, if_pos hq, hr, ht, ih]
    · by_cases hr : p.1 = k'
      · have ht : ¬k = k' := fun h => hq (by rw [hr, ← h])
        have ht2 : ¬k' = k := fun h => ht h.symm
        simp [lookupBin_cons, if_neg hq, hr, ht, ht2]
      · simp [lookupBin_cons, if_neg hq, hr, ih]

theorem applyEvents_nil (now : Nat) (st : FSState) : applyEvents now st [] = st := rfl

theorem applyEvents_cons (now : Nat) (st : FSState) (e : Event) (evs : List Event) :
    applyEvents now st (e :: evs) = applyEvents now (applyEvent now st e) evs := rfl

theorem applyEvents_append (now : Nat) :
    ∀ (evs1 evs2 : List Event) (st : FSState),
      applyEvents now st (evs1 ++ evs2) = applyEvents now (applyEvents now st evs1) evs2 := by
  intro evs1
  induction evs1 with
  | nil => intro evs2 st; rfl
  | cons e rest ih =>
    intro evs2 st
    rw [List.cons_append, applyEvents_cons, applyEvents_cons, ih]

theorem targetNames_cons_emit (k : String × String) (s0 b0 n : String) (j : RenderJob)
    (rest : List Event) :
    targetNames k (Event.emitJob s0 b0 n j :: rest) =
      if (s0, b0) = k then n :: targetNames k rest else targetNames k rest := by
  unfold targetNames
  rw [List.filterMap_cons]
  by_cases h : (s0, b0) = k
  · simp [h]
  · simp [h]

theorem targetNames_cons_windex (k : String × String) (s0 b0 : String)
    (rest : List Event) :
    targetNames k (Event.writeIndex s0 b0 :: rest) =
      if (s0, b0) = k then "index.html.gz" :: targetNames k rest
      else targetNames k rest := by
  unfold targetNames
  rw [List.filterMap_cons]
  by_cases h : (s0, b0) = k
  · simp [h]
  · simp [h]

theorem targetNames_cons_join (k : String × String) (rest : List Event) :
    targetNames k (Event.join :: rest) = targetNames k rest := by
  unfold targetNames
  rw [List.filterMap_cons]

theorem targetNames_cons_contents (k : String × String) (s : String)
    (rest : List Event) :
    targetNames k (Event.writeContents s :: rest) = targetNames k rest := by
  unfold targetNames
  rw [List.filterMap_cons]

theorem targetNames_append (k : String × String) (evs1 evs2 : List Event) :
    targetNames k (evs1 ++ evs2) = targetNames k evs1 ++ targetNames k evs2 := by
  unfold targetNames
  rw [List.filterMap_append]

theorem applyEvents_suiteDirs (now : Nat) :
    ∀ (evs : List Event) (st : FSState),
      (applyEvents now st evs).suiteDirs = st.suiteDirs := by
  intro evs
  induction evs with
  | nil => intro st; rfl
  | cons e rest ih =>
    intro st
    rw [applyEvents_cons, ih]
    cases e <;> rfl

theorem contentsNames_cons_emit (s0 b0 n : String) (j : RenderJob) (rest : List Event) :
    contentsNames (Event.emitJob s0 b0 n j :: rest) = contentsNames rest := by
  unfold contentsNames
  rw [List.filterMap_cons]

theorem contentsNames_cons_windex (s0 b0 : String) (rest : List Event) :
    contentsNames (Event.writeIndex s0 b0 :: rest) = contentsNames rest := by
  unfold contentsNames
  rw [List.filterMap_cons]

theorem contentsNames_cons_join (rest : List Event) :
    contentsNames (Event.join :: rest) = contentsNames rest := by
  unfold contentsNames
  rw [List.filterMap_cons]

theorem contentsNames_cons_contents (s : String) (rest : List Event) :
    contentsNames (Event.writeContents s :: rest) =
      ("contents-" ++ s ++ ".html.gz") :: contentsNames rest := by
  unfold contentsNames
  rw [List.filterMap_cons]

theorem applyEvents_rootEntries (now : Nat) :
    ∀ (evs : List Event) (st : FSState),
      (applyEvents now st evs).rootEntries =
        applyNames now st.rootEntries (contentsNames evs) := by
  intro evs
  induction evs with
  | nil => intro st; rfl
  | cons e rest ih =>
    intro st
    rw [applyEvents_cons, ih]
    cases e with
    | emitJob s0 b0 n j => rw [contentsNames_cons_emit]; rfl
    | writeIndex s0 b0 => rw [contentsNames_cons_windex]; rfl
    | join => rw [contentsNames_cons_join]; rfl
    | writeContents s =>
      rw [contentsNames_cons_contents, applyNames_cons]
      rfl

theorem applyEvents_binDirs (now : Nat) :
    ∀ (evs : List Event) (st : FSState) (k : String × String),
      lookupBin (applyEvents now st evs).binDirs k =
        (lookupBin st.binDirs k).map
          (fun es => applyNames now es (targetNames k evs)) := by
  intro evs
  induction evs with
  | nil =>
    intro st k
    rw [applyEvents_nil]
    cases lookupBin st.binDirs k <;> rfl
  | cons e rest ih =>
    intro st k
    rw [applyEvents_cons, ih]
    cases e with
    | emitJob s0 b0 n j =>
      have hb : (applyEvent now st (Event.emitJob s0 b0 n j)).binDirs =
          updateBin st.binDirs (s0, b0) n now := rfl
      rw [hb, lookupBin_updateBin, targetNames_cons_emit]
      by_cases hk : (s0, b0) = k
      · rw [if_pos hk, if_pos hk]
        cases lookupBin st.binDirs k with
        | none => rfl
        | some es => rw [Option.map_map]; rfl
      · rw [if_neg hk, if_neg hk]
    | writeIndex s0 b0 =>
      have hb : (applyEvent now st (Event.writeIndex s0 b0)).binDirs =
          updateBin st.binDirs (s0, b0) "index.html.gz" now := rfl
      rw [hb, lookupBin_updateBin, targetNames_cons_windex]
      by_cases hk : (s0, b0) = k
      · rw [if_pos hk, if_pos hk]
        cases lookupBin st.binDirs k with
        | none => rfl
        | some es => rw [Option.map_map]; rfl
      · rw [if_neg hk, if_neg hk]
    | join =>
      rw [targetNames_cons_join]
      rfl
    | writeContents s =>
      rw [targetNames_cons_contents]
      rfl

theorem elig_name_not_html {dir : String} {f : FileInfo}
    (h : eligiblePre dir f = true) : hasSuffix f.name ".html.gz" = false := by
  unfold eligiblePre at h
  simp only [Bool.and_eq_true, Bool.not_eq_true'] at h
  rcases h with ⟨⟨_, hfull⟩, _⟩
  cases hh : hasSuffix f.name ".html.gz" with
  | false => rfl
  | true =>
    have := hasSuffix_of_name dir f.name ".html.gz" hh
    rw [hfull] at this
    cases this

theorem renderNeeded_eq_false_of_some {lookup : String → Option FileInfo}
    {f html : FileInfo} (h : lookup (trimSuffix f.name ".gz" ++ ".html.gz") = some html)
    (hle : ¬html.modTime < f.modTime) : renderNeeded lookup f = false := by
  unfold renderNeeded
  rw [h]
  exact decide_eq_false hle

theorem renderNeeded_congr {l1 l2 : String → Option FileInfo} {f : FileInfo}
    (h : l1 (trimSuffix f.name ".gz" ++ ".html.gz") =
      l2 (trimSuffix f.name ".gz" ++ ".html.gz")) :
    renderNeeded l1 f = renderNeeded l2 f := by
  unfold renderNeeded
  rw [h]

theorem jobFor_eq_none_fresh {parse : String → Option Meta}
    {xref : List (String × List Meta)} {lookup : String → Option FileInfo}
    {dir : String} {f : FileInfo} (h : renderNeeded lookup f = false) :
    jobFor parse xref lookup dir f = none := by
  unfold jobFor
  by_cases he : eligiblePre dir f
  · cases hp : parse (dir ++ "/" ++ f.name) <;> simp [he, hp, h]
  · simp [he]

/-- After a pass over the listing `E` whose writes are collected in the
name list `ts`, re-scanning the updated listing finds every document
fresh and the index page newer than every eligible entry: the second
scan emits no job and does not mark the index stale. -/
theorem processDir_fresh_after (parse : String → Option Meta)
    (xref : List (String × List Meta)) (dir : String) (E : List FileInfo)
    (now : Nat) (ts : List String)
    (hTnames : ∀ m ∈ ts, hasSuffix m ".html.gz" = true)
    (hjobs : ∀ p ∈ (processDir parse xref dir E).jobs, p.1 ∈ ts)
    (hflag : (processDir parse xref dir E).indexNeedsUpdate = true →
      "index.html.gz" ∈ ts)
    (htime : ∀ f ∈ E, f.modTime < now) :
    (processDir parse xref dir (applyNames now E ts)).jobs = [] ∧
      (processDir parse xref dir (applyNames now E ts)).indexNeedsUpdate = false := by
  have hmemE : ∀ f : FileInfo, eligiblePre dir f = true →
      (f ∈ applyNames now E ts ↔ f ∈ E) := by
    intro f helig
    apply mem_applyNames
    intro n hn heq
    have h1 : hasSuffix f.name ".html.gz" = false := elig_name_not_html helig
    rw [heq, hTnames n hn] at h1
    cases h1
  have hnojob : ∀ f ∈ applyNames now E ts,
      jobFor parse xref (fileByName (applyNames now E ts)) dir f = none := by
    intro f hf
    by_cases helig : eligiblePre dir f = true
    · by_cases hp : ∃ m, parse (dir ++ "/" ++ f.name) = some m
      · have hfE : f ∈ E := (hmemE f helig).mp hf
        apply jobFor_eq_none_fresh
        by_cases hnn : (trimSuffix f.name ".gz" ++ ".html.gz") ∈ ts
        · apply renderNeeded_eq_false_of_some
            (fileByName_applyNames_mem now ts E _ hnn)
          have h2 : (writtenFile (trimSuffix f.name ".gz" ++ ".html.gz") now).modTime =
              now := rfl
          rw [h2]
          exact Nat.lt_asymm (htime f hfE)
        · rw [renderNeeded_congr (fileByName_applyNames_not_mem now ts E _ hnn)]
          cases hrn : renderNeeded (fileByName E) f with
          | false => rfl
          | true =>
            exfalso
            rcases hp with ⟨m, hm⟩
            have hj : jobFor parse xref (fileByName E) dir f =
                some (trimSuffix f.name ".gz" ++ ".html.gz",
                  mkJob xref dir (dir ++ "/" ++ f.name)
                    (trimSuffix f.name ".gz" ++ ".html.gz") m) := by
              unfold jobFor
              simp [helig, hm, hrn]
            have hmem : (trimSuffix f.name ".gz" ++ ".html.gz",
                mkJob xref dir (dir ++ "/" ++ f.name)
                  (trimSuffix f.name ".gz" ++ ".html.gz") m) ∈
                (processDir parse xref dir E).jobs := by
              rw [processDir_jobs]
              exact List.mem_flatMap.mpr ⟨f, hfE, by rw [hj]; simp⟩
            exact hnn (hjobs _ hmem)
      · unfold jobFor
        cases hpp : parse (dir ++ "/" ++ f.name) with
        | none => simp [helig, hpp]
        | some m => exact absurd ⟨m, hpp⟩ hp
    · unfold jobFor
      have he : eligiblePre dir f = false := Bool.eq_false_iff.mpr helig
      simp [he]
  constructor
  · rw [processDir_jobs, List.eq_nil_iff_forall_not_mem]
    intro p hp
    rcases List.mem_flatMap.mp hp with ⟨f, hf, hpf⟩
    have h2 := Option.mem_toList.mp hpf
    rw [hnojob f hf] at h2
    cases h2
  · apply Bool.eq_false_iff.mpr
    intro hft
    rw [processDir_flag] at hft
    rcases List.any_eq_true.mp hft with ⟨f, hf, hcond⟩
    simp only [Bool.and_eq_true, decide_eq_true_eq] at hcond
    obtain ⟨helig, hlt⟩ := hcond
    have hfE : f ∈ E := (hmemE f helig).mp hf
    by_cases hidx : "index.html.gz" ∈ ts
    · have hieq : indexModTimeOf (applyNames now E ts) = now := by
        unfold indexModTimeOf
        rw [fileByName_applyNames_mem now ts E _ hidx]
        rfl
      rw [hieq] at hlt
      exact absurd hlt (Nat.lt_asymm (htime f hfE))
    · have hflag1 : (processDir parse xref dir E).indexNeedsUpdate = false := by
        apply Bool.eq_false_iff.mpr
        intro h
        exact hidx (hflag h)
      have hieq : indexModTimeOf (applyNames now E ts) = indexModTimeOf E := by
        unfold indexModTimeOf
        rw [fileByName_applyNames_not_mem now ts E _ hidx]
      rw [hieq] at hlt
      have hany : E.any
          (fun g => eligiblePre dir g && decide (indexModTimeOf E < g.modTime)) = true :=
        List.any_eq_true.mpr ⟨f, hfE, by simp [helig, hlt]⟩
      rw [processDir_flag] at hflag1
      rw [hflag1] at hany
      cases hany

theorem jobFor_name {parse : String → Option Meta} {xref : List (String × List Meta)}
    {lookup : String → Option FileInfo} {dir : String} {f : FileInfo}
    {p : String × RenderJob} (h : jobFor parse xref lookup dir f = some p) :
    p.1 = trimSuffix f.name ".gz" ++ ".html.gz" := by
  unfold jobFor at h
  by_cases he : eligiblePre dir f <;> simp [he] at h
  cases hp : parse (dir ++ "/" ++ f.name) <;> simp [hp] at h
  by_cases hr : renderNeeded lookup f <;> simp [hr] at h
  rw [← h]

/-- The events one package directory contributes to the producer trace:
its job hand-offs followed by its index rebuild when flagged. -/
def dirBlock (env : Env) (t : String × String × List FileInfo) : List Event :=
  ((processDir env.parse env.xref (dirPath env.servingDir t.1 t.2.1) t.2.2).jobs.map
    (fun p => Event.emitJob t.1 t.2.1 p.1 p.2)) ++
    (if (processDir env.parse env.xref (dirPath env.servingDir t.1 t.2.1)
        t.2.2).indexNeedsUpdate then
      [Event.writeIndex t.1 t.2.1]
    else [])

theorem runDirs_success_events (env : Env) (hwl : env.whitelist = none) :
    ∀ l, (runDirs env l).2 = none →
      (runDirs env l).1 = l.flatMap (dirBlock env) := by
  intro l
  induction l with
  | nil => intro _; rfl
  | cons hd rest ih =>
    intro h
    obtain ⟨s, b, files⟩ := hd
    have hskip : whitelistSkip env.whitelist b = false := by
      rw [hwl]
      rfl
    unfold runDirs at h ⊢
    simp only [hskip, Bool.false_eq_true, if_false] at h ⊢
    by_cases hix :
        (processDir env.parse env.xref (dirPath env.servingDir s b) files).indexNeedsUpdate
    · simp only [hix, if_true] at h ⊢
      cases hpk : env.pkgindexErr (dirPath env.servingDir s b ++ "/" ++ "index.html.gz") with
      | some er =>
        simp only [hpk] at h
        cases h
      | none =>
        simp only [hpk] at h
        simp only [List.flatMap_cons]
        rw [ih h]
        unfold dirBlock
        simp [hix, List.append_assoc]
    · simp only [hix, Bool.false_eq_true, if_false] at h ⊢
      simp only [List.flatMap_cons]
      rw [ih h]
      unfold dirBlock
      simp [hix]

theorem runDirs_all_fresh (env : Env) (hwl : env.whitelist = none) :
    ∀ l, (∀ t ∈ l,
        (processDir env.parse env.xref (dirPath env.servingDir t.1 t.2.1) t.2.2).jobs = [] ∧
        (processDir env.parse env.xref (dirPath env.servingDir t.1 t.2.1)
          t.2.2).indexNeedsUpdate = false) →
      runDirs env l = ([], none) := by
  intro l
  induction l with
  | nil => intro _; rfl
  | cons hd rest ih =>
    intro h
    obtain ⟨s, b, files⟩ := hd
    have hskip : whitelistSkip env.whitelist b = false := by
      rw [hwl]
      rfl
    have hh := h (s, b, files) (List.mem_cons_self _ _)
    unfold runDirs
    simp only [hskip, Bool.false_eq_true, if_false, hh.1, hh.2, List.map_nil,
      List.nil_append]
    exact ih (fun t ht => h t (List.mem_cons_of_mem _ ht))

theorem scanBins_ok_mem (env : Env) (suite : String) :
    ∀ bins l, scanBins env suite bins = .ok l →
      ∀ t ∈ l, env.binList suite t.2.1 = .ok t.2.2 ∧ t.1 = suite := by
  intro bins
  induction bins with
  | nil =>
    intro l h t ht
    cases h
    cases ht
  | cons bfi rest ih =>
    intro l h t ht
    unfold scanBins at h
    cases hb : env.binList suite bfi.name with
    | error e => rw [hb] at h; cases h
    | ok entries =>
      rw [hb] at h
      cases hr : scanBins env suite rest with
      | error e => rw [hr] at h; cases h
      | ok out =>
        rw [hr] at h
        cases h
        rcases List.mem_cons.mp ht with rfl | hmem
        · exact ⟨hb, rfl⟩
        · exact ih out hr t hmem

theorem scanSuites_ok_mem (env : Env) :
    ∀ roots bbs cont, scanSuites env roots = .ok (bbs, cont) →
      ∀ t ∈ cont, env.binList t.1 t.2.1 = .ok t.2.2 := by
  intro roots
  induction roots with
  | nil =>
    intro bbs cont h t ht
    cases h
    cases ht
  | cons sfi rest ih =>
    intro bbs cont h t ht
    unfold scanSuites at h
    by_cases hd : (!sfi.isDir) = true
    · rw [if_pos hd] at h
      exact ih bbs cont h t ht
    · rw [if_neg hd] at h
      by_cases hs : (!env.suites sfi.name) = true
      · rw [if_pos hs] at h
        exact ih bbs cont h t ht
      · rw [if_neg hs] at h
        cases hsl : env.suiteList sfi.name with
        | error e => simp only [hsl] at h; cases h
        | ok bins =>
          simp only [hsl] at h
          cases hsb : scanBins env sfi.name bins with
          | error e => simp only [hsb] at h; cases h
          | ok dirs =>
            simp only [hsb] at h
            cases hss : scanSuites env rest with
            | error e => simp only [hss] at h; cases h
            | ok bc =>
              obtain ⟨bbs0, cont0⟩ := bc
              simp only [hss] at h
              cases h
              rcases List.mem_append.mp ht with hmem | hmem
              · rcases scanBins_ok_mem env sfi.name bins dirs hsb t hmem with ⟨hb, hkey⟩
                rw [hkey]
                exact hb
              · exact ih bbs0 cont0 hss t hmem

theorem renderAll_success_inv (env : Env) (h : (renderAll env).error? = none) :
    ∃ bbs cont evs cevs,
      scanDirs env = .ok (bbs, cont) ∧
      runDirs env cont = (evs, none) ∧
      waitResult env evs = none ∧
      contentsLoop env bbs = (cevs, none) ∧
      (renderAll env).events = evs ++ [Event.join] ++ cevs := by
  unfold renderAll at h ⊢
  cases hscan : scanDirs env with
  | error e => rw [hscan] at h; simp at h
  | ok bc =>
    obtain ⟨bbs, cont⟩ := bc
    simp only [hscan] at h ⊢
    rcases hrun : runDirs env cont with ⟨evs, err?⟩
    simp only [hrun] at h ⊢
    cases err? with
    | some e => simp at h
    | none =>
      cases hwait : waitResult env evs with
      | some e => simp only [hwait] at h; simp at h
      | none =>
        simp only [hwait] at h ⊢
        rcases hcl : contentsLoop env bbs with ⟨cevs, cerr⟩
        simp only [hcl] at h ⊢
        cases cerr with
        | some e => simp at h
        | none => exact ⟨bbs, cont, evs, cevs, rfl, hrun, hwait, hcl, rfl⟩

theorem mem_targetNames_of_emit {s b n : String} {j : RenderJob} {evs : List Event}
    (h : Event.emitJob s b n j ∈ evs) : n ∈ targetNames (s, b) evs :=
  List.mem_filterMap.mpr ⟨_, h, by simp⟩

theorem mem_targetNames_of_windex {s b : String} {evs : List Event}
    (h : Event.writeIndex s b ∈ evs) : "index.html.gz" ∈ targetNames (s, b) evs :=
  List.mem_filterMap.mpr ⟨_, h, by simp⟩

theorem targetNames_suffix (env : Env) (cont : List (String × String × List FileInfo))
    (k : String × String) :
    ∀ m ∈ targetNames k (cont.flatMap (dirBlock env)), hasSuffix m ".html.gz" = true := by
  intro m hm
  rcases List.mem_filterMap.mp hm with ⟨e, he, hme⟩
  rcases List.mem_flatMap.mp he with ⟨t, _, het⟩
  unfold dirBlock at het
  rcases List.mem_append.mp het with hjob | hidx
  · rcases List.mem_map.mp hjob with ⟨p, hp, rfl⟩
    have hm2 : m = p.1 := by
      by_cases hk : ((t.1, t.2.1) == k) = true <;> simp [hk] at hme
      exact hme.symm
    rw [processDir_jobs] at hp
    rcases List.mem_flatMap.mp hp with ⟨f, _, hpf⟩
    have hj := Option.mem_toList.mp hpf
    rw [hm2, jobFor_name hj]
    exact hasSuffix_append_self _ _
  · by_cases hix :
        (processDir env.parse env.xref (dirPath env.servingDir t.1 t.2.1)
          t.2.2).indexNeedsUpdate
    · rw [if_pos hix] at hidx
      rcases List.mem_singleton.mp hidx with rfl
      have hm2 : m = "index.html.gz" := by
        by_cases hk : ((t.1, t.2.1) == k) = true <;> simp [hk] at hme
        exact hme.symm
      rw [hm2]
      decide
    · rw [if_neg hix] at hidx
      cases hidx

theorem scanBins_transform (env1 env2 : Env) (suite : String)
    (tr : String → List FileInfo → List FileInfo)
    (hb : ∀ b es, env1.binList suite b = .ok es → env2.binList suite b = .ok (tr b es)) :
    ∀ bins l, scanBins env1 suite bins = .ok l →
      scanBins env2 suite bins = .ok (l.map (fun t => (t.1, t.2.1, tr t.2.1 t.2.2))) := by
  intro bins
  induction bins with
  | nil =>
    intro l h
    cases h
    rfl
  | cons bfi rest ih =>
    intro l h
    unfold scanBins at h ⊢
    cases hbl : env1.binList suite bfi.name with
    | error e => simp only [hbl] at h; cases h
    | ok entries =>
      simp only [hbl] at h
      cases hr : scanBins env1 suite rest with
      | error e => simp only [hr] at h; cases h
      | ok out =>
        simp only [hr] at h
        cases h
        simp only [hb bfi.name entries hbl, ih out hr]
        rfl

theorem scanSuites_transform (env1 env2 : Env)
    (hsuites : ∀ s, env2.suites s = env1.suites s)
    (hsl : ∀ s, env2.suiteList s = env1.suiteList s)
    (tr : String → String → List FileInfo → List FileInfo)
    (hb : ∀ s b es, env1.binList s b = .ok es → env2.binList s b = .ok (tr s b es)) :
    ∀ roots bbs cont, scanSuites env1 roots = .ok (bbs, cont) →
      scanSuites env2 roots =
        .ok (bbs, cont.map (fun t => (t.1, t.2.1, tr t.1 t.2.1 t.2.2))) := by
  intro roots
  induction roots with
  | nil =>
    intro bbs cont h
    cases h
    rfl
  | cons sfi rest ih =>
    intro bbs cont h
    unfold scanSuites at h ⊢
    by_cases hd : (!sfi.isDir) = true
    · rw [if_pos hd] at h ⊢
      exact ih bbs cont h
    · rw [if_neg hd] at h ⊢
      by_cases hs : (!env1.suites sfi.name) = true
      · rw [if_pos hs] at h
        rw [if_pos (by rw [hsuites]; exact hs)]
        exact ih bbs cont h
      · rw [if_neg hs] at h
        rw [if_neg (by rw [hsuites]; exact hs)]
        cases hsl1 : env1.suiteList sfi.name with
        | error e => simp only [hsl1] at h; cases h
        | ok bins =>
          simp only [hsl1] at h
          cases hsb : scanBins env1 sfi.name bins with
          | error e => simp only [hsb] at h; cases h
          | ok dirs =>
            simp only [hsb] at h
            cases hss : scanSuites env1 rest with
            | error e => simp only [hss] at h; cases h
            | ok bc =>
              obtain ⟨bbs0, cont0⟩ := bc
              simp only [hss] at h
              cases h
              simp only [hsl, hsl1,
                scanBins_transform env1 env2 sfi.name (tr sfi.name)
                  (fun b es hbe => hb sfi.name b es hbe) bins dirs hsb,
                ih bbs0 cont0 hss]
              simp only [List.map_append, Except.ok.injEq, Prod.mk.injEq,
                List.append_cancel_right_eq, true_and]
              apply List.map_congr_left
              intro t ht
              have hkey := (scanBins_ok_mem env1 sfi.name bins dirs hsb t ht).2
              rw [hkey]

theorem scanSuites_cons (env : Env) (sfi : FileInfo) (rest : List FileInfo) :
    scanSuites env (sfi :: rest) =
      if !sfi.isDir then scanSuites env rest
      else if !env.suites sfi.name then scanSuites env rest
      else
        match env.suiteList sfi.name with
        | .error e => .error e
        | .ok bins =>
          match scanBins env sfi.name bins with
          | .error e => .error e
          | .ok dirs =>
            match scanSuites env rest with
            | .error e => .error e
            | .ok (bbs, contents) =>
              .ok ((sfi.name, bins.map (fun b => b.name)) :: bbs, dirs ++ contents) := rfl

theorem scanSuites_filter (env : Env) :
    ∀ roots, scanSuites env roots =
      scanSuites env (roots.filter (fun fi => fi.isDir)) := by
  intro roots
  induction roots with
  | nil => rfl
  | cons sfi rest ih =>
    by_cases hd : sfi.isDir = true
    · rw [List.filter_cons_of_pos (by simpa using hd)]
      rw [scanSuites_cons, scanSuites_cons]
      rw [ih]
    · rw [List.filter_cons_of_neg (by simpa using hd)]
      have hd2 : (!sfi.isDir) = true := by
        have h0 : sfi.isDir = false := Bool.eq_false_iff.mpr hd
        rw [h0]
        rfl
      rw [scanSuites_cons, if_pos hd2]
      exact ih

theorem filter_isDir_map_overwrite (n : String) (now : Nat) :
    ∀ roots : List FileInfo,
      (∀ fi ∈ roots, fi.isDir = true → fi.name ≠ n) →
      (roots.map (fun fi => if fi.name == n then writtenFile n now else fi)).filter
        (fun fi => fi.isDir) =
      roots.filter (fun fi => fi.isDir) := by
  intro roots
  induction roots with
  | nil => intro _; rfl
  | cons f rest ih =>
    intro hroot
    have hrest : ∀ fi ∈ rest, fi.isDir = true → fi.name ≠ n :=
      fun fi hfi => hroot fi (List.mem_cons_of_mem _ hfi)
    rw [List.map_cons]
    by_cases hf : f.name = n
    · have hfd : f.isDir = false := by
        cases hfd : f.isDir with
        | false => rfl
        | true => exact absurd hf (hroot f (List.mem_cons_self _ _) hfd)
      rw [if_pos (by simpa using hf)]
      rw [List.filter_cons_of_neg (by simp [writtenFile])]
      rw [List.filter_cons_of_neg (by simp [hfd])]
      exact ih hrest
    · rw [if_neg (by simpa using hf)]
      by_cases hfd : f.isDir = true
      · rw [List.filter_cons_of_pos (by simpa using hfd),
          List.filter_cons_of_pos (by simpa using hfd)]
        rw [ih hrest]
      · rw [List.filter_cons_of_neg (by simpa using hfd),
          List.filter_cons_of_neg (by simpa using hfd)]
        exact ih hrest

theorem filter_isDir_setEntry (roots : List FileInfo) (n : String) (now : Nat)
    (hroot : ∀ fi ∈ roots, fi.isDir = true → fi.name ≠ n) :
    (setEntry roots n now).filter (fun fi => fi.isDir) =
      roots.filter (fun fi => fi.isDir) := by
  unfold setEntry
  by_cases h : roots.any (fun fi => fi.name == n)
  · simp only [h, if_true]
    exact filter_isDir_map_overwrite n now roots hroot
  · simp only [h, Bool.false_eq_true, if_false]
    rw [List.filter_append]
    rw [List.filter_cons_of_neg (by simp [writtenFile])]
    simp

theorem filter_isDir_applyNames (now : Nat) :
    ∀ (ns : List String) (roots : List FileInfo),
      (∀ m ∈ ns, hasSuffix m ".html.gz" = true) →
      (∀ fi ∈ roots, fi.isDir = true → hasSuffix fi.name ".html.gz" = false) →
      (applyNames now roots ns).filter (fun fi => fi.isDir) =
        roots.filter (fun fi => fi.isDir) := by
  intro ns
  induction ns with
  | nil => intro roots _ _; rfl
  | cons n rest ih =>
    intro roots hns hroot
    have hn : hasSuffix n ".html.gz" = true := hns n (List.mem_cons_self _ _)
    have hrn : ∀ fi ∈ roots, fi.isDir = true → fi.name ≠ n := by
      intro fi hfi hd heq
      have := hroot fi hfi hd
      rw [heq, hn] at this
      cases this
    have hse := filter_isDir_setEntry roots n now hrn
    have hroot2 : ∀ fi ∈ setEntry roots n now, fi.isDir = true →
        hasSuffix fi.name ".html.gz" = false := by
      intro fi hfi hd
      have hmem : fi ∈ (setEntry roots n now).filter (fun g => g.isDir) :=
        List.mem_filter.mpr ⟨hfi, by simpa using hd⟩
      rw [hse] at hmem
      exact hroot fi (List.mem_filter.mp hmem).1 hd
    rw [applyNames_cons]
    rw [ih (setEntry roots n now) (fun m hm => hns m (List.mem_cons_of_mem _ hm)) hroot2]
    exact hse

theorem contentsNames_suffix :
    ∀ evs : List Event, ∀ m ∈ contentsNames evs, hasSuffix m ".html.gz" = true := by
  intro evs m hm
  rcases List.mem_filterMap.mp hm with ⟨e, _, hme⟩
  cases e <;> simp at hme
  rw [← hme]
  exact hasSuffix_append_self _ _

theorem scanDirs_after_events (c : Collab) (st : FSState) (now : Nat) (evs : List Event)
    (hdirroot : ∀ fi ∈ st.rootEntries, fi.isDir = true →
      hasSuffix fi.name ".html.gz" = false)
    (bbs : List (String × List String)) (cont : List (String × String × List FileInfo))
    (h1 : scanDirs (envOfState c st) = .ok (bbs, cont)) :
    scanDirs (envOfState c (applyEvents now st evs)) =
      .ok (bbs, cont.map (fun t =>
        (t.1, t.2.1, applyNames now t.2.2 (targetNames (t.1, t.2.1) evs)))) := by
  have hscan1 : scanSuites (envOfState c st) st.rootEntries = .ok (bbs, cont) := h1
  have hsuites : ∀ s, (envOfState c (applyEvents now st evs)).suites s =
      (envOfState c st).suites s := fun _ => rfl
  have hsl : ∀ s, (envOfState c (applyEvents now st evs)).suiteList s =
      (envOfState c st).suiteList s := by
    intro s
    show (match lookupSuite (applyEvents now st evs).suiteDirs s with
      | some es => Except.ok es
      | none => Except.error ("open " ++ s)) = _
    rw [applyEvents_suiteDirs]
    rfl
  have hb : ∀ s b es, (envOfState c st).binList s b = .ok es →
      (envOfState c (applyEvents now st evs)).binList s b =
        .ok (applyNames now es (targetNames (s, b) evs)) := by
    intro s b es h
    have h' : (match lookupBin st.binDirs (s, b) with
        | some es0 => Except.ok es0
        | none => Except.error ("open " ++ s ++ "/" ++ b)) = Except.ok es := h
    cases hlk : lookupBin st.binDirs (s, b) with
    | none => rw [hlk] at h'; cases h'
    | some es0 =>
      rw [hlk] at h'
      cases h'
      show (match lookupBin (applyEvents now st evs).binDirs (s, b) with
        | some es1 => Except.ok es1
        | none => Except.error ("open " ++ s ++ "/" ++ b)) = _
      rw [applyEvents_binDirs, hlk]
      rfl
  show scanSuites (envOfState c (applyEvents now st evs))
      (applyEvents now st evs).rootEntries = _
  rw [applyEvents_rootEntries]
  rw [scanSuites_filter]
  rw [filter_isDir_applyNames now (contentsNames evs) st.rootEntries
    (contentsNames_suffix evs) hdirroot]
  rw [← scanSuites_filter]
  exact scanSuites_transform (envOfState c st) (envOfState c (applyEvents now st evs))
    hsuites hsl (fun s b es => applyNames now es (targetNames (s, b) evs)) hb
    st.rootEntries bbs cont hscan1

theorem lookupBin_of_binList_ok {c : Collab} {st : FSState} {s b : String}
    {es : List FileInfo} (h : (envOfState c st).binList s b = .ok es) :
    ∃ q, q ∈ st.binDirs ∧ q.2 = es := by
  have h' : (match lookupBin st.binDirs (s, b) with
      | some es0 => Except.ok es0
      | none => Except.error ("open " ++ s ++ "/" ++ b)) = Except.ok es := h
  cases hlk : lookupBin st.binDirs (s, b) with
  | none => rw [hlk] at h'; cases h'
  | some es0 =>
    rw [hlk] at h'
    cases h'
    unfold lookupBin at hlk
    cases hfq : st.binDirs.find? (fun p => p.1 == (s, b)) with
    | none => rw [hfq] at hlk; cases hlk
    | some q =>
      rw [hfq] at hlk
      cases hlk
      exact ⟨q, List.mem_of_find?_eq_some hfq, rfl⟩

/-- Claim C2, amended --- what a second pass actually does: after a
successful pass over `st` whose write effects (each installed at time
`now`, later than every pre-existing modification time) are applied to
the filesystem, a second pass emits no render job and rebuilds no index
page: its whole event trace is the join point followed by the per-suite
listing regenerations, which `renderAll` performs unconditionally on
every run. -/
theorem second_pass_renders_nothing (c : Collab) (st : FSState) (now : Nat)
    (hwl : c.whitelist = none)
    (htime : ∀ k es, (k, es) ∈ st.binDirs → ∀ fi ∈ es, fi.modTime < now)
    (hdirroot : ∀ fi ∈ st.rootEntries, fi.isDir = true →
      hasSuffix fi.name ".html.gz" = false)
    (h1 : (renderAll (envOfState c st)).error? = none) :
    ∀ e ∈ (renderAll (envOfState c
        (applyEvents now st (renderAll (envOfState c st)).events))).events,
      e = Event.join ∨ ∃ s, e = Event.writeContents s := by
  obtain ⟨bbs, cont, evs1, cevs, hscan, hrun, hwait, hcl, hevents⟩ :=
    renderAll_success_inv _ h1
  have hwl1 : (envOfState c st).whitelist = none := hwl
  have hrun2none : (runDirs (envOfState c st) cont).2 = none := by rw [hrun]
  have hevs1 : evs1 = cont.flatMap (dirBlock (envOfState c st)) := by
    have h := runDirs_success_events _ hwl1 cont hrun2none
    rw [hrun] at h
    exact h
  have htn : ∀ k : String × String,
      targetNames k (renderAll (envOfState c st)).events = targetNames k evs1 := by
    intro k
    rw [hevents, targetNames_append, targetNames_append]
    have hc0 : targetNames k [Event.join] = [] := rfl
    have hc : targetNames k cevs = [] := by
      unfold targetNames
      rw [List.filterMap_eq_nil]
      intro e he
      rcases contentsLoop_events_mem _ bbs e (by rw [hcl]; exact he) with ⟨s, rfl⟩
      rfl
    rw [hc0, hc]
    simp
  have hscan2 := scanDirs_after_events c st now (renderAll (envOfState c st)).events
    hdirroot bbs cont hscan
  have hscan1 : scanSuites (envOfState c st) st.rootEntries = .ok (bbs, cont) := hscan
  have hfresh : ∀ t2 ∈ cont.map (fun t =>
      (t.1, t.2.1, applyNames now t.2.2
        (targetNames (t.1, t.2.1) (renderAll (envOfState c st)).events))),
      (processDir c.parse c.xref (dirPath c.servingDir t2.1 t2.2.1) t2.2.2).jobs = [] ∧
      (processDir c.parse c.xref (dirPath c.servingDir t2.1 t2.2.1)
        t2.2.2).indexNeedsUpdate = false := by
    intro t2 ht2
    rcases List.mem_map.mp ht2 with ⟨t, ht, rfl⟩
    show (processDir c.parse c.xref (dirPath c.servingDir t.1 t.2.1)
        (applyNames now t.2.2
          (targetNames (t.1, t.2.1) (renderAll (envOfState c st)).events))).jobs = [] ∧ _
    rw [htn (t.1, t.2.1)]
    have hbin : (envOfState c st).binList t.1 t.2.1 = .ok t.2.2 :=
      scanSuites_ok_mem (envOfState c st) st.rootEntries bbs cont hscan1 t ht
    have hT : ∀ m ∈ targetNames (t.1, t.2.1) evs1, hasSuffix m ".html.gz" = true := by
      rw [hevs1]
      exact targetNames_suffix (envOfState c st) cont (t.1, t.2.1)
    have hJ : ∀ p ∈ (processDir c.parse c.xref (dirPath c.servingDir t.1 t.2.1)
        t.2.2).jobs, p.1 ∈ targetNames (t.1, t.2.1) evs1 := by
      intro p hp
      apply mem_targetNames_of_emit
      rw [hevs1]
      apply List.mem_flatMap.mpr
      refine ⟨t, ht, ?_⟩
      unfold dirBlock
      apply List.mem_append_left
      exact List.mem_map.mpr ⟨p, hp, rfl⟩
    have hF : (processDir c.parse c.xref (dirPath c.servingDir t.1 t.2.1)
        t.2.2).indexNeedsUpdate = true → "index.html.gz" ∈ targetNames (t.1, t.2.1) evs1 := by
      intro hix
      apply mem_targetNames_of_windex
      rw [hevs1]
      apply List.mem_flatMap.mpr
      refine ⟨t, ht, ?_⟩
      unfold dirBlock
      apply List.mem_append_right
      have hix2 : (processDir (envOfState c st).parse (envOfState c st).xref
          (dirPath (envOfState c st).servingDir t.1 t.2.1) t.2.2).indexNeedsUpdate = true :=
        hix
      rw [if_pos hix2]
      exact List.mem_singleton.mpr rfl
    have hTime : ∀ f ∈ t.2.2, f.modTime < now := by
      rcases lookupBin_of_binList_ok hbin with ⟨q, hqmem, hq2⟩
      intro f hf
      have hqm2 : (q.1, q.2) ∈ st.binDirs := hqmem
      apply htime q.1 q.2 hqm2 f
      rw [hq2]
      exact hf
    exact processDir_fresh_after c.parse c.xref (dirPath c.servingDir t.1 t.2.1)
      t.2.2 now (targetNames (t.1, t.2.1) evs1) hT hJ hF hTime
  have hwl2 : (envOfState c
      (applyEvents now st (renderAll (envOfState c st)).events)).whitelist = none := hwl
  have hrd2 : runDirs (envOfState c
      (applyEvents now st (renderAll (envOfState c st)).events))
      (cont.map (fun t => (t.1, t.2.1, applyNames now t.2.2
        (targetNames (t.1, t.2.1) (renderAll (envOfState c st)).events)))) = ([], none) :=
    runDirs_all_fresh _ hwl2 _ hfresh
  rw [hevents] at hscan2 hrd2 ⊢
  intro e he
  unfold renderAll at he
  simp only [hscan2] at he
  simp only [hrd2] at he
  have hw2 : waitResult (envOfState c
      (applyEvents now st (evs1 ++ [Event.join] ++ cevs))) [] = none := rfl
  simp only [hw2] at he
  rcases hcl2 : contentsLoop (envOfState c
      (applyEvents now st (evs1 ++ [Event.join] ++ cevs))) bbs with ⟨cevs2, cerr2⟩
  simp only [hcl2] at he
  simp only [List.nil_append, List.singleton_append, List.mem_cons] at he
  rcases he with rfl | he
  · exact Or.inl rfl
  · exact Or.inr (contentsLoop_events_mem _ bbs e (by rw [hcl2]; exact he))

/-- Concrete collaborators for the idempotence scenario: one suite
`main`, no whitelist, every serving path parses, all collaborator calls
succeed. -/
def collabC2 : Collab where
  servingDir := "sd"
  suites := fun s => s == "main"
  whitelist := none
  parse := fun s => some ⟨s, s⟩
  xref := []
  renderErr := fun _ => none
  pkgindexErr := fun _ => none
  contentsErr := fun _ => none

/-- Concrete starting state: one package directory `main/foo` holding a
single never-rendered source document `x.1.gz`. -/
def stC2 : FSState where
  rootEntries := [⟨"main", 1, true, false⟩]
  suiteDirs := [("main", [⟨"foo", 1, true, false⟩])]
  binDirs := [(("main", "foo"), [⟨"x.1.gz", 5, false, false⟩])]

/-- Counterexample to claim C2 as stated: the first pass succeeds, and
a second pass over the unchanged filesystem still performs a write,
because `renderAll` regenerates every per-suite listing page
(`contents-<suite>.html.gz`) unconditionally on every run (render.go
lines 233 to 237 carry no staleness check). -/
theorem second_pass_still_writes_cex :
    (renderAll (envOfState collabC2 stC2)).error? = none ∧
      Event.writeContents "main" ∈
        (renderAll (envOfState collabC2 (applyEvents 100 stC2
          (renderAll (envOfState collabC2 stC2)).events))).events := by decide

/-- Witness for the amended idempotence claim at the concrete
scenario: the listing-page event of the second pass is indeed nothing
but a listing-page event. -/
theorem second_pass_renders_nothing_witness :
    Event.writeContents "main" = Event.join ∨
      ∃ s, Event.writeContents "main" = Event.writeContents s :=
  second_pass_renders_nothing collabC2 stC2 100 rfl
    (by
      intro k es hmem fi hfi
      have h := List.mem_singleton.mp hmem
      injection h with h1 h2
      subst h2
      have h3 := List.mem_singleton.mp hfi
      subst h3
      decide)
    (by
      intro fi hfi hd
      have h := List.mem_singleton.mp hfi
      subst h
      decide)
    (by decide)
    (Event.writeContents "main") (by decide)

end Debiman
